import Mathlib

/-!
Verification of the stack/queue containers (stack_queue.cpp) and the
sorting/searching suite (sorting_searching.java) of the
intermediate-projects repository.

The C++ `Stack<T>` is embedded as a record holding the backing buffer as a
total function `Nat → T` (slots past `topIndex` hold default-initialized
values), the `topIndex` and `capacity` fields as mathematical integers
standing for the C++ `int` fields.  Throwing operations return an
`Except String` result paired with the post-state of the container.

The C++ `Queue<T>` is embedded with an explicit heap: node addresses are
natural numbers, `heap : Nat → Option (Node T)` gives the allocated node at
each address, and `frontPtr`/`rearPtr` are nullable pointers (`Option Nat`);
`count` is the stored element counter.  Dereferencing a dangling pointer
(impossible in states reachable from the constructor) is modelled by an
error value.

The Java sorting and searching routines are embedded as index-driven loops
over a `List α` together with a key function `v : α → Int`; every comparison
the Java code performs on array slots of type `int` becomes the same
comparison on the keys of the corresponding list entries.  Instantiating
`α := Int` with the identity key gives the literal `int[]` programs, while
instantiating `α := Int × Nat` (value paired with original position) lets
stability be stated.  Array reads `arr[i]` with an `int` index become
`geti`, writes become `seti`, and the three-assignment `swap` helper becomes
`swapa`.
-/

set_option maxHeartbeats 1600000

/-- Node of the linked queue (`struct Node`): stored value and the
`next` pointer, null modelled as `none`. -/
structure Node (T : Type) where
  data : T
  next : Option Nat

/-- The C++ `Stack<T>`: backing array, index of the top element
(`-1` when empty) and current capacity. -/
structure Stack (T : Type) where
  arr : Nat → T
  topIndex : Int
  capacity : Int

/-- The C++ `Queue<T>`: heap of allocated nodes, front and rear pointers,
element count, plus the address the next allocation will use. -/
structure Queue (T : Type) where
  heap : Nat → Option (Node T)
  frontPtr : Option Nat
  rearPtr : Option Nat
  count : Int
  nextAddr : Nat

namespace Stack

/-- Constructor `Stack(int size)` on the sizes where the allocation
`new T[size]` succeeds (`size >= 0`; slots hold default-initialized
values): sets `capacity = size` and `topIndex = -1`. The source performs
no validation of `size`; the allocation failure on negative sizes is
modelled by `Stack.createE`. -/
def create (T : Type) [Inhabited T] (size : Int) : Stack T :=
  { arr := fun _ => default, topIndex := -1, capacity := size }

/-- Constructor `Stack(int size)` including the allocation step itself:
`arr = new T[size]` throws `std::bad_array_new_length` when `size` is
negative, before any member is assigned; for `size >= 0` the allocation
succeeds and the members are set as in `Stack.create` (which is this same
constructor restricted to the sizes where allocation succeeds). -/
def createE (T : Type) [Inhabited T] (size : Int) : Except String (Stack T) :=
  if size < 0 then Except.error "std::bad_array_new_length"
  else Except.ok (create T size)

/-- Constructor with the default argument `size = 10`. -/
def createDefault (T : Type) [Inhabited T] : Stack T :=
  create T 10

/-- Private `resize()`: doubles `capacity`, allocates a new buffer, copies
slots `0..topIndex` from the old buffer (the remaining slots of the fresh
buffer hold default-initialized values), and frees the old buffer. -/
def resize {T : Type} [Inhabited T] (s : Stack T) : Stack T :=
  { arr := fun i => if (i : Int) ≤ s.topIndex then s.arr i else default,
    topIndex := s.topIndex,
    capacity := s.capacity * 2 }

/-- Predicate `isEmpty()`: `topIndex == -1`. -/
def isEmpty {T : Type} (s : Stack T) : Bool :=
  s.topIndex = -1

/-- Accessor `size()`: `topIndex + 1`. -/
def size {T : Type} (s : Stack T) : Int :=
  s.topIndex + 1

/-- Operation `push(value)`: resizes when `topIndex == capacity - 1`, then
stores `value` at slot `++topIndex`. -/
def push {T : Type} [Inhabited T] (s : Stack T) (value : T) : Stack T :=
  let s1 := if s.topIndex = s.capacity - 1 then s.resize else s
  { arr := fun i => if (i : Int) = s1.topIndex + 1 then value else s1.arr i,
    topIndex := s1.topIndex + 1,
    capacity := s1.capacity }

/-- Operation `pop()`: throws on an empty stack (the exception is returned
as an error together with the unchanged state), otherwise returns
`arr[topIndex--]`. -/
def pop {T : Type} (s : Stack T) : Except String T × Stack T :=
  if s.isEmpty then
    (.error "Stack Underflow: Cannot pop from empty stack", s)
  else
    (.ok (s.arr s.topIndex.toNat),
     { arr := s.arr, topIndex := s.topIndex - 1, capacity := s.capacity })

/-- Operation `peek()`: throws on an empty stack, otherwise returns
`arr[topIndex]` without mutating (`const` method). -/
def peek {T : Type} (s : Stack T) : Except String T :=
  if s.isEmpty then .error "Stack is empty: Cannot peek"
  else .ok (s.arr s.topIndex.toNat)

/-- Iterated push: push every element of `l`, first element first. -/
def pushList {T : Type} [Inhabited T] (s : Stack T) (l : List T) : Stack T :=
  l.foldl push s

/-- Iterated pop: perform `n` pops, collecting each result in order. -/
def popList {T : Type} (s : Stack T) : Nat → List (Except String T) × Stack T
  | 0 => ([], s)
  | n + 1 =>
    let r := s.pop
    let rest := r.2.popList n
    (r.1 :: rest.1, rest.2)

end Stack

namespace Queue

/-- Constructor `Queue()`: both pointers null, `count = 0`, nothing
allocated yet. -/
def create (T : Type) : Queue T :=
  { heap := fun _ => none, frontPtr := none, rearPtr := none,
    count := 0, nextAddr := 0 }

/-- Predicate `isEmpty()`: `frontPtr == nullptr`. -/
def isEmpty {T : Type} (q : Queue T) : Bool :=
  q.frontPtr.isNone

/-- Accessor `size()`: returns `count`. -/
def size {T : Type} (q : Queue T) : Int :=
  q.count

/-- Operation `enqueue(value)`: allocates a node at a fresh address; if the
queue is empty both pointers are set to it, otherwise `rearPtr->next` is
redirected to it and `rearPtr` advances; `count` is incremented.  The
`rearPtr->next` write with a null `rearPtr` (unreachable from `create`)
is modelled as leaving the queue unchanged. -/
def enqueue {T : Type} (q : Queue T) (value : T) : Queue T :=
  let addr := q.nextAddr
  let heap1 : Nat → Option (Node T) :=
    fun a => if a = addr then some { data := value, next := none } else q.heap a
  if q.isEmpty then
    { heap := heap1, frontPtr := some addr, rearPtr := some addr,
      count := q.count + 1, nextAddr := addr + 1 }
  else
    match q.rearPtr with
    | some r =>
      let heap2 : Nat → Option (Node T) :=
        fun a =>
          if a = r then (heap1 r).map (fun nd => { data := nd.data, next := some addr })
          else heap1 a
      { heap := heap2, frontPtr := q.frontPtr, rearPtr := some addr,
        count := q.count + 1, nextAddr := addr + 1 }
    | none => q

/-- Operation `dequeue()`: throws on an empty queue; otherwise detaches the
front node, advances `frontPtr` (nulling `rearPtr` when the chain became
empty), frees the node, decrements `count` and returns the stored value.
Reading through a dangling front pointer (unreachable from `create`) is
modelled as an error leaving the queue unchanged. -/
def dequeue {T : Type} (q : Queue T) : Except String T × Queue T :=
  match q.frontPtr with
  | none => (.error "Queue Underflow: Cannot dequeue from empty queue", q)
  | some p =>
    match q.heap p with
    | none => (.error "invalid pointer dereference", q)
    | some nd =>
      let front1 := nd.next
      let rear1 := if front1.isNone then none else q.rearPtr
      (.ok nd.data,
       { heap := fun a => if a = p then none else q.heap a,
         frontPtr := front1, rearPtr := rear1,
         count := q.count - 1, nextAddr := q.nextAddr })

/-- Operation `front()`: throws on an empty queue, otherwise returns
`frontPtr->data` without mutating (`const` method). -/
def front {T : Type} (q : Queue T) : Except String T :=
  match q.frontPtr with
  | none => .error "Queue is empty: Cannot access front"
  | some p =>
    match q.heap p with
    | none => .error "invalid pointer dereference"
    | some nd => .ok nd.data

/-- Iterated enqueue: enqueue every element of `l`, first element first. -/
def enqueueList {T : Type} (q : Queue T) (l : List T) : Queue T :=
  l.foldl enqueue q

/-- Iterated dequeue: perform `n` dequeues, collecting each result in
order. -/
def dequeueList {T : Type} (q : Queue T) : Nat → List (Except String T) × Queue T
  | 0 => ([], q)
  | n + 1 =>
    let r := q.dequeue
    let rest := r.2.dequeueList n
    (r.1 :: rest.1, rest.2)

/-- One client operation on a queue: an enqueue of a value, or a dequeue
(whose returned value is discarded; a failing dequeue leaves the queue
unchanged). -/
inductive Op (T : Type) where
  | enq (value : T)
  | deq

/-- Apply one client operation. -/
def applyOp {T : Type} (q : Queue T) : Op T → Queue T
  | .enq value => q.enqueue value
  | .deq => q.dequeue.2

/-- Run a sequence of client operations from left to right. -/
def runOps {T : Type} (q : Queue T) (ops : List (Op T)) : Queue T :=
  ops.foldl applyOp q

/-- Transitive pointer chasing: follow exactly `k` `next` links starting
from the node at address `p`, returning the address reached (or `none` if
a null or unallocated pointer is crossed). -/
def followNext {T : Type} (heap : Nat → Option (Node T)) : Nat → Nat → Option Nat
  | 0, p => some p
  | k + 1, p =>
    match heap p with
    | none => none
    | some nd =>
      match nd.next with
      | none => none
      | some p2 => followNext heap k p2

/-- Chain predicate: the labelled node list `l` (address, stored value)
spells out the linked chain starting at pointer `p`, ending with a null
`next` pointer. -/
def isChain {T : Type} (heap : Nat → Option (Node T)) : List (Nat × T) → Option Nat → Prop
  | [], p => p = none
  | (a, x) :: rest, p =>
    p = some a ∧ ∃ nd, heap a = some nd ∧ nd.data = x ∧ isChain heap rest nd.next

/-- Representation invariant of the queue: `l` lists the chain of live
nodes front to rear; the rear pointer names the last of them; `count` is
their number; addresses are distinct and below the allocation frontier. -/
def Wf {T : Type} (q : Queue T) (l : List (Nat × T)) : Prop :=
  isChain q.heap l q.frontPtr
  ∧ q.rearPtr = l.getLast?.map Prod.fst
  ∧ q.count = l.length
  ∧ (l.map Prod.fst).Nodup
  ∧ ∀ a ∈ l.map Prod.fst, a < q.nextAddr

end Queue

namespace sorting_searching

variable {α : Type} [Inhabited α]

/-- Array read `a[i]` with a C++/Java `int` index (in-range in every
execution of the source; out-of-range reads yield the default value). -/
def geti (a : List α) (i : Int) : α :=
  a.getD i.toNat default

/-- Array write `a[i] = x` (in-range in every execution of the source;
out-of-range writes are dropped). -/
def seti (a : List α) (i : Int) (x : α) : List α :=
  a.set i.toNat x

/-- Utility `swap(arr, i, j)`: `temp = arr[i]; arr[i] = arr[j];
arr[j] = temp`. -/
def swapa (a : List α) (i j : Int) : List α :=
  let temp := geti a i
  let a1 := seti a i (geti a j)
  seti a1 j temp

/-- Inner loop of `bubbleSort`: for `j` from its current value while
`j < bound` (the source has `bound = arr.length - 1 - i`), swap the
adjacent pair when `arr[j] > arr[j+1]`, recording in `swapped` whether any
swap happened. -/
def bubbleInner (v : α → Int) (a : List α) (bound j : Int) (swapped : Bool) :
    List α × Bool :=
  if h : j < bound then
    if v (geti a j) > v (geti a (j + 1)) then
      bubbleInner v (swapa a j (j + 1)) bound (j + 1) true
    else
      bubbleInner v a bound (j + 1) swapped
  else (a, swapped)
termination_by (bound - j).toNat
decreasing_by
  · omega
  · omega

/-- Outer loop of `bubbleSort`: for `i` while `i < arr.length - 1`, run a
pass with `swapped = false`; stop early as soon as a pass performs no
swap. -/
def bubbleOuter (v : α → Int) (a : List α) (i : Int) : List α :=
  if h : i < (a.length : Int) - 1 then
    let p := bubbleInner v a ((a.length : Int) - 1 - i) 0 false
    if p.2 then bubbleOuter v p.1 (i + 1) else p.1
  else a
termination_by ((a.length : Int) - 1 - i).toNat
decreasing_by
  have hlen : ∀ (n : Nat) (bound j : Int) (b : List α) (s : Bool),
      (bound - j).toNat = n → ((bubbleInner v b bound j s).1).length = b.length := by
    intro n
    induction n using Nat.strong_induction_on with
    | _ n ih =>
      intro bound j b s hn
      rw [bubbleInner]
      split
      · split
        · rw [ih (bound - (j + 1)).toNat (by omega) bound (j + 1) _ true rfl]
          simp [swapa, seti]
        · exact ih (bound - (j + 1)).toNat (by omega) bound (j + 1) b s rfl
      · simp
  rw [hlen ((a.length : Int) - 1 - i - 0).toNat ((a.length : Int) - 1 - i) 0 a false rfl]
  omega

/-- Method `bubbleSort(int[] arr)` generalized over the element type with
key function `v`; every `int` comparison of the source becomes the same
comparison of keys. -/
def bubbleSort (v : α → Int) (a : List α) : List α :=
  bubbleOuter v a 0

/-- Inner loop of `selectionSort`: scan `j` over the remaining suffix,
tracking the index of the least element seen. -/
def selectMin (v : α → Int) (a : List α) (j minIdx : Int) : Int :=
  if h : j < (a.length : Int) then
    if v (geti a j) < v (geti a minIdx) then selectMin v a (j + 1) j
    else selectMin v a (j + 1) minIdx
  else minIdx
termination_by ((a.length : Int) - j).toNat
decreasing_by
  · omega
  · omega

/-- Outer loop of `selectionSort`: for `i` while `i < arr.length - 1`,
find the minimum of `arr[i..]` and swap it into position `i`. -/
def selectionOuter (v : α → Int) (a : List α) (i : Int) : List α :=
  if h : i < (a.length : Int) - 1 then
    selectionOuter v (swapa a i (selectMin v a (i + 1) i)) (i + 1)
  else a
termination_by ((a.length : Int) - 1 - i).toNat
decreasing_by
  have hl : (swapa a i (selectMin v a (i + 1) i)).length = a.length := by
    simp [swapa, seti]
  rw [hl]
  omega

/-- Method `selectionSort(int[] arr)` generalized over the element type
with key function `v`. -/
def selectionSort (v : α → Int) (a : List α) : List α :=
  selectionOuter v a 0

/-- Inner loop of `insertionSort`: while `j >= 0 && arr[j] > key`, shift
`arr[j]` one slot right and decrement `j`; finally store `key` at
`arr[j+1]`. -/
def insertLoop (v : α → Int) (a : List α) (key : α) (j : Int) : List α :=
  if h : 0 ≤ j ∧ v (geti a j) > v key then
    insertLoop v (seti a (j + 1) (geti a j)) key (j - 1)
  else seti a (j + 1) key
termination_by (j + 1).toNat
decreasing_by
  omega

/-- Outer loop of `insertionSort`: for `i` from 1 while `i < arr.length`,
insert `key = arr[i]` into the sorted prefix. -/
def insertionOuter (v : α → Int) (a : List α) (i : Int) : List α :=
  if h : i < (a.length : Int) then
    insertionOuter v (insertLoop v a (geti a i) (i - 1)) (i + 1)
  else a
termination_by ((a.length : Int) - i).toNat
decreasing_by
  have hlen : ∀ (n : Nat) (j : Int) (b : List α) (key : α),
      (j + 1).toNat = n → (insertLoop v b key j).length = b.length := by
    intro n
    induction n using Nat.strong_induction_on with
    | _ n ih =>
      intro j b key hn
      rw [insertLoop]
      split
      · rw [ih (j - 1 + 1).toNat (by omega) (j - 1) _ key rfl]
        simp [seti]
      · simp [seti]
  rw [hlen (i - 1 + 1).toNat (i - 1) a (geti a i) rfl]
  omega

/-- Method `insertionSort(int[] arr)` generalized over the element type
with key function `v`. -/
def insertionSort (v : α → Int) (a : List α) : List α :=
  insertionOuter v a 1

/-- Copy loop of `merge`: build the temporary buffer of length `n` from
the segment of `a` starting at `start` (`L[i] = arr[left + i]` and
`R[j] = arr[mid + 1 + j]` in the source). -/
def copySeg (a : List α) (start : Int) : Nat → List α
  | 0 => []
  | n + 1 => geti a start :: copySeg a (start + 1) n

/-- Main loop of `merge`: while both buffers have elements left, write the
smaller head back (ties favour the left buffer `L[i] <= R[j]`), returning
the final array and counters. -/
def mergeLoop (v : α → Int) (L R a : List α) (i j k : Int) :
    List α × Int × Int × Int :=
  if h : i < (L.length : Int) ∧ j < (R.length : Int) then
    if v (geti L i) ≤ v (geti R j) then
      mergeLoop v L R (seti a k (geti L i)) (i + 1) j (k + 1)
    else
      mergeLoop v L R (seti a k (geti R j)) i (j + 1) (k + 1)
  else (a, i, j, k)
termination_by ((L.length : Int) - i + ((R.length : Int) - j)).toNat
decreasing_by
  · omega
  · omega

/-- Tail loop of `merge`: copy the remainder of one temporary buffer back
into the array. -/
def copyRest (src a : List α) (i k : Int) : List α × Int × Int :=
  if h : i < (src.length : Int) then
    copyRest src (seti a k (geti src i)) (i + 1) (k + 1)
  else (a, i, k)
termination_by ((src.length : Int) - i).toNat
decreasing_by
  omega

/-- Method `merge(arr, left, mid, right)`: copy the two halves into
temporary buffers `L` and `R`, merge them back starting at `left`, then
flush whatever remains of each buffer. -/
def mergeSeg (v : α → Int) (a : List α) (left mid right : Int) : List α :=
  let n1 := mid - left + 1
  let n2 := right - mid
  let L := copySeg a left n1.toNat
  let R := copySeg a (mid + 1) n2.toNat
  let m := mergeLoop v L R a 0 0 left
  let c1 := copyRest L m.1 m.2.1 m.2.2.2
  let c2 := copyRest R c1.1 m.2.2.1 c1.2.2
  c2.1

/-- Recursive `mergeSort(arr, left, right)`: split at
`mid = left + (right - left) / 2`, sort both halves, merge. -/
def mergeSortSeg (v : α → Int) (a : List α) (left right : Int) : List α :=
  if h : left < right then
    let mid := left + (right - left) / 2
    let a1 := mergeSortSeg v a left mid
    let a2 := mergeSortSeg v a1 (mid + 1) right
    mergeSeg v a2 left mid right
  else a
termination_by (right - left).toNat
decreasing_by
  · have h1 : 0 ≤ (right - left) / 2 := Int.ediv_nonneg (by omega) (by omega)
    have h3 : (right - left) / 2 < right - left :=
      Int.ediv_lt_of_lt_mul (by omega) (by omega)
    omega
  · have h1 : 0 ≤ (right - left) / 2 := Int.ediv_nonneg (by omega) (by omega)
    omega

/-- Entry point `mergeSort(int[] arr)`: immediately returns on length at
most 1, otherwise sorts the whole index range, generalized over the
element type with key function `v`. -/
def mergeSort (v : α → Int) (a : List α) : List α :=
  if a.length ≤ 1 then a else mergeSortSeg v a 0 ((a.length : Int) - 1)

/-- Loop of `partition`: for `j` from `low` while `j < high`, when
`arr[j] <= pivot` increment `i` and swap `arr[i]` with `arr[j]`; returns
the final array and `i`. -/
def partitionLoop (v : α → Int) (a : List α) (pivot : α) (high i j : Int) :
    List α × Int :=
  if h : j < high then
    if v (geti a j) ≤ v pivot then
      partitionLoop v (swapa a (i + 1) j) pivot high (i + 1) (j + 1)
    else
      partitionLoop v a pivot high i (j + 1)
  else (a, i)
termination_by (high - j).toNat
decreasing_by
  · omega
  · omega

/-- Method `partition(arr, low, high)`: pivot is `arr[high]`; after the
loop, swap the pivot into slot `i + 1` and return that index. -/
def partitionSeg (v : α → Int) (a : List α) (low high : Int) : List α × Int :=
  let pivot := geti a high
  let pr := partitionLoop v a pivot high (low - 1) low
  (swapa pr.1 (pr.2 + 1) high, pr.2 + 1)

/-- Recursive `quickSort(arr, low, high)`: when `low < high`, partition
and recurse on both sides of the pivot slot. -/
def quickSortSeg (v : α → Int) (a : List α) (low high : Int) : List α :=
  if h : low < high then
    let pr := partitionSeg v a low high
    quickSortSeg v (quickSortSeg v pr.1 low (pr.2 - 1)) (pr.2 + 1) high
  else a
termination_by (high - low).toNat
decreasing_by
  all_goals
    have hpb : ∀ (n : Nat) (b : List α) (piv : α) (hi ii jj : Int),
        (hi - jj).toNat = n → jj ≤ hi →
        ii ≤ (partitionLoop v b piv hi ii jj).2 ∧
          (partitionLoop v b piv hi ii jj).2 ≤ ii + (hi - jj) := by
      intro n
      induction n using Nat.strong_induction_on with
      | _ n ih =>
        intro b piv hi ii jj hn hle
        rw [partitionLoop]
        split
        · split
          · have := ih (hi - (jj + 1)).toNat (by omega) (swapa b (ii + 1) jj) piv hi
              (ii + 1) (jj + 1) rfl (by omega)
            omega
          · have := ih (hi - (jj + 1)).toNat (by omega) b piv hi ii (jj + 1) rfl (by omega)
            omega
        · simp
          omega
    have := hpb (high - low).toNat a (geti a high) high (low - 1) low rfl (by omega)
    simp only [pr, partitionSeg]
    omega

/-- Entry point `quickSort(int[] arr)`: sorts the whole index range,
generalized over the element type with key function `v`. -/
def quickSort (v : α → Int) (a : List α) : List α :=
  quickSortSeg v a 0 ((a.length : Int) - 1)

/-- Method `linearSearch(int[] arr, int target)`: scan left to right,
return the first matching index, `-1` when absent. -/
def linLoop (arr : List Int) (target i : Int) : Int :=
  if h : i < (arr.length : Int) then
    if geti arr i = target then i else linLoop arr target (i + 1)
  else -1
termination_by ((arr.length : Int) - i).toNat
decreasing_by
  omega

/-- Entry point of `linearSearch`. -/
def linearSearch (arr : List Int) (target : Int) : Int :=
  linLoop arr target 0

/-- Loop of `binarySearch(int[] arr, int target)`: while `left <= right`,
probe `mid = left + (right - left) / 2` and halve the range. -/
def bsLoop (arr : List Int) (target left right : Int) : Int :=
  if h : left ≤ right then
    let mid := left + (right - left) / 2
    if geti arr mid = target then mid
    else if geti arr mid < target then bsLoop arr target (mid + 1) right
    else bsLoop arr target left (mid - 1)
  else -1
termination_by (right + 1 - left).toNat
decreasing_by
  · have h1 : 0 ≤ (right - left) / 2 := Int.ediv_nonneg (by omega) (by omega)
    omega
  · have h1 : (right - left) / 2 ≤ right - left := Int.ediv_le_self _ (by omega)
    have h2 : 0 ≤ (right - left) / 2 := Int.ediv_nonneg (by omega) (by omega)
    omega

/-- Entry point of `binarySearch`: the initial range is the whole array. -/
def binarySearch (arr : List Int) (target : Int) : Int :=
  bsLoop arr target 0 ((arr.length : Int) - 1)

/-- Specification device (not part of the source): ordinary functional
merging of two lists, ties favouring the left list, used to describe what
the imperative `merge` writes back. -/
def mergeF (v : α → Int) : List α → List α → List α
  | [], R => R
  | L, [] => L
  | x :: L2, y :: R2 =>
    if v x ≤ v y then x :: mergeF v L2 (y :: R2) else y :: mergeF v (x :: L2) R2
termination_by L R => L.length + R.length
decreasing_by
  · simp
  · simp

/-- Specification device: the segment `a[l..r]` (both ends included) as a
list. -/
def slice (a : List α) (l r : Int) : List α :=
  (a.drop l.toNat).take (r - l + 1).toNat

/-- Specification device: the subsequence of entries whose key is `k`,
used to state sort stability. -/
def keyFilter (v : α → Int) (k : Int) (a : List α) : List α :=
  a.filter (fun x => v x == k)

/-- Specification device: the list is sorted in non-decreasing key
order. -/
def SortedKey (v : α → Int) (a : List α) : Prop :=
  a.Pairwise (fun x y => v x ≤ v y)

end sorting_searching

/-- Abstraction relation for the stack: `l` lists the live elements bottom
to top, so `topIndex` is `l.length - 1` and slot `i` holds `l[i]` for every
`i < l.length`. -/
def Stack.Models {T : Type} (s : Stack T) (l : List T) : Prop :=
  s.topIndex = (l.length : Int) - 1 ∧ ∀ (i : Nat) (hi : i < l.length), s.arr i = l[i]

theorem Stack.models_create (T : Type) [Inhabited T] (c : Int) :
    (Stack.create T c).Models [] := by
  refine ⟨by simp [Stack.create], ?_⟩
  intro i hi
  simp at hi

theorem Stack.models_push {T : Type} [Inhabited T] {s : Stack T} {l : List T}
    (hm : s.Models l) (x : T) : (s.push x).Models (l ++ [x]) := by
  obtain ⟨htop, harr⟩ := hm
  have hs1 : (if s.topIndex = s.capacity - 1 then s.resize else s).topIndex = s.topIndex ∧
      ∀ (i : Nat) (hi : i < l.length),
        (if s.topIndex = s.capacity - 1 then s.resize else s).arr i = l[i] := by
    split
    · refine ⟨rfl, ?_⟩
      intro i hi
      have : (i : Int) ≤ s.topIndex := by omega
      simp only [Stack.resize, if_pos this]
      exact harr i hi
    · exact ⟨rfl, harr⟩
  constructor
  · simp only [Stack.push, hs1.1]
    simp
    omega
  · intro i hi
    simp only [Stack.push, hs1.1]
    simp only [List.length_append, List.length_cons, List.length_nil] at hi
    by_cases hcase : i = l.length
    · subst hcase
      have : (l.length : Int) = s.topIndex + 1 := by omega
      simp [this]
    · have hlt : i < l.length := by omega
      have hne : ¬((i : Int) = s.topIndex + 1) := by omega
      rw [if_neg hne, hs1.2 i hlt]
      rw [List.getElem_append_left hlt]

theorem Stack.models_pop {T : Type} {s : Stack T} {l : List T} {x : T}
    (hm : s.Models (l ++ [x])) :
    s.pop.1 = Except.ok x ∧ s.pop.2.Models l := by
  obtain ⟨htop, harr⟩ := hm
  simp only [List.length_append, List.length_cons, List.length_nil] at htop
  have hne : s.isEmpty = false := by
    simp only [Stack.isEmpty, decide_eq_false_iff_not]
    omega
  have htn : s.topIndex.toNat = l.length := by omega
  constructor
  · simp only [Stack.pop]
    rw [if_neg (by simp [hne])]
    have hlen : l.length < (l ++ [x]).length := by simp
    rw [htn, harr l.length hlen]
    simp
  · refine ⟨?_, ?_⟩
    · simp only [Stack.pop]
      rw [if_neg (by simp [hne])]
      dsimp only
      omega
    · intro i hi
      simp only [Stack.pop]
      rw [if_neg (by simp [hne])]
      dsimp only
      have hlen : i < (l ++ [x]).length := by simp; omega
      rw [harr i hlen, List.getElem_append_left hi]

theorem Stack.models_pushList {T : Type} [Inhabited T] :
    ∀ (l : List T) (acc : List T) (s : Stack T),
      s.Models acc → (s.pushList l).Models (acc ++ l)
  | [], acc, s, hm => by simpa [Stack.pushList] using hm
  | x :: xs, acc, s, hm => by
    have h1 : (s.push x).Models (acc ++ [x]) := Stack.models_push hm x
    have h2 := Stack.models_pushList xs (acc ++ [x]) (s.push x) h1
    simpa [Stack.pushList, List.foldl_cons] using h2

theorem Stack.models_popList {T : Type} (l : List T) :
    ∀ (s : Stack T), s.Models l → (s.popList l.length).1 = l.reverse.map Except.ok := by
  induction l using List.reverseRecOn with
  | nil =>
    intro s hm
    simp [Stack.popList]
  | append_singleton l x ih =>
    intro s hm
    obtain ⟨h1, h2⟩ := Stack.models_pop hm
    have hlen : (l ++ [x]).length = l.length + 1 := by simp
    rw [hlen]
    simp only [Stack.popList]
    rw [h1, ih _ h2]
    simp

/-- C1: Stack LIFO law — for every element type, pushing p1..pn onto a
freshly created stack of any positive initial capacity and then popping n
times returns exactly the pushed values in reverse order (pn first, p1
last), whether or not growth occurred in between. -/
theorem stack_lifo_law (T : Type) [Inhabited T] (cap : Int) (hcap : 1 ≤ cap)
    (l : List T) :
    (((Stack.create T cap).pushList l).popList l.length).1 =
      l.reverse.map Except.ok := by
  have h1 := Stack.models_pushList l [] (Stack.create T cap) (Stack.models_create T cap)
  simp only [List.nil_append] at h1
  exact Stack.models_popList l _ h1

/-- Witness for `stack_lifo_law` at capacity 2 and pushes 1, 2, 3. -/
theorem stack_lifo_law_witness :
    1 ≤ (2 : Int) ∧
      (((Stack.create Int 2).pushList [1, 2, 3]).popList 3).1 =
        [Except.ok 3, Except.ok 2, Except.ok 1] :=
  ⟨by norm_num, by simpa using stack_lifo_law Int 2 (by norm_num) [1, 2, 3]⟩

/-- C3: a push issued when `size == capacity` doubles the capacity exactly
and preserves every already-stored slot before appending the new element;
concretely, a stack of initial capacity 2 grows on `push 1; push 2; push 3`
to capacity 4 and the three pops then yield 3, 2, 1. -/
theorem stack_growth_preserves {T : Type} [Inhabited T] (s : Stack T) (x : T)
    (hfull : s.size = s.capacity) (hvalid : -1 ≤ s.topIndex) :
    (s.push x).capacity = 2 * s.capacity
    ∧ (∀ i : Nat, (i : Int) < s.size → (s.push x).arr i = s.arr i)
    ∧ (s.push x).arr s.size.toNat = x
    ∧ (s.push x).size = s.size + 1
    ∧ (((Stack.create Int 2).pushList [1, 2, 3]).popList 3).1 =
        [Except.ok 3, Except.ok 2, Except.ok 1]
    ∧ ((Stack.create Int 2).pushList [1, 2, 3]).capacity = 4 := by
  simp only [Stack.size] at hfull
  have hcond : s.topIndex = s.capacity - 1 := by omega
  refine ⟨?_, ?_, ?_, ?_, by rfl, by rfl⟩
  · simp only [Stack.push, if_pos hcond, Stack.resize]
    omega
  · intro i hi
    simp only [Stack.size] at hi
    simp only [Stack.push, if_pos hcond, Stack.resize]
    rw [if_neg (by omega), if_pos (by omega)]
  · simp only [Stack.push, if_pos hcond, Stack.resize, Stack.size]
    rw [if_pos (by omega)]
  · simp only [Stack.push, if_pos hcond, Stack.resize, Stack.size]

/-- Witness for `stack_growth_preserves` at the full capacity-2 stack
holding 1, 2 with 3 about to be pushed. -/
theorem stack_growth_preserves_witness :
    ((Stack.create Int 2).pushList [1, 2]).size =
        ((Stack.create Int 2).pushList [1, 2]).capacity
    ∧ -1 ≤ ((Stack.create Int 2).pushList [1, 2]).topIndex
    ∧ (((Stack.create Int 2).pushList [1, 2]).push 3).capacity =
        2 * ((Stack.create Int 2).pushList [1, 2]).capacity :=
  ⟨by decide, by decide,
   (stack_growth_preserves ((Stack.create Int 2).pushList [1, 2]) 3
      (by decide) (by decide)).1⟩

/-- C9 counterexample: constructing a stack with initial capacity 0
(which is < 1) is not rejected — the constructor performs no validation
and yields an ordinary empty stack of capacity 0. -/
theorem stack_create_zero_not_rejected :
    (Stack.create Int 0).capacity = 0 ∧ (Stack.create Int 0).size = 0 ∧
      (Stack.create Int 0).isEmpty = true := by
  decide

/-- C9 (amended): stack construction performs no validation of the initial
capacity and never raises `InvalidArgument`: every non-negative capacity,
zero included, yields a new empty stack (size 0) with exactly that
capacity, and the default capacity is 10; a negative capacity fails, but
with the allocation error `std::bad_array_new_length` thrown by
`new T[size]` before any member is assigned, not with
`InvalidArgument`. -/
theorem stack_create_no_validation (T : Type) [Inhabited T] (c : Int) :
    (0 ≤ c → Stack.createE T c = Except.ok (Stack.create T c) ∧
      (Stack.create T c).size = 0 ∧ (Stack.create T c).capacity = c ∧
      (Stack.create T c).isEmpty = true) ∧
    (c < 0 → Stack.createE T c = Except.error "std::bad_array_new_length") ∧
    (Stack.createDefault T).capacity = 10 := by
  refine ⟨fun h0 => ⟨?_, ?_, rfl, ?_⟩, fun hneg => ?_, rfl⟩
  · rw [Stack.createE, if_neg (by omega)]
  · norm_num [Stack.create, Stack.size]
  · simp [Stack.create, Stack.isEmpty]
  · rw [Stack.createE, if_pos hneg]

/-- Witness for `stack_create_no_validation`: capacity 0 is accepted and
yields an empty stack of capacity 0, while capacity -1 fails with the
allocation error. -/
theorem stack_create_no_validation_witness :
    (Stack.createE Int 0 = Except.ok (Stack.create Int 0) ∧
      (Stack.create Int 0).size = 0 ∧ (Stack.create Int 0).capacity = 0 ∧
      (Stack.create Int 0).isEmpty = true) ∧
    Stack.createE Int (-1) = Except.error "std::bad_array_new_length" :=
  ⟨(stack_create_no_validation Int 0).1 (by decide),
    (stack_create_no_validation Int (-1)).2.1 (by decide)⟩

theorem Queue.isChain_congr {T : Type} {heap heap2 : Nat → Option (Node T)} :
    ∀ (l : List (Nat × T)) (p : Option Nat),
      (∀ a ∈ l.map Prod.fst, heap2 a = heap a) →
      Queue.isChain heap l p → Queue.isChain heap2 l p
  | [], p, _, hc => hc
  | (a, x) :: rest, p, hagree, hc => by
    obtain ⟨hp, nd, hnd, hdata, hrest⟩ := hc
    refine ⟨hp, nd, ?_, hdata, ?_⟩
    · rw [hagree a (by simp), hnd]
    · exact Queue.isChain_congr rest nd.next (fun b hb => hagree b (by simp [hb])) hrest

theorem Queue.wf_create (T : Type) : (Queue.create T).Wf [] := by
  refine ⟨rfl, rfl, rfl, List.nodup_nil, ?_⟩
  simp

theorem Queue.isChain_extend {T : Type} {heap heap2 : Nat → Option (Node T)}
    {addr : Nat} {x : T} :
    ∀ (l : List (Nat × T)) (p : Option Nat) (rl : Nat × T),
      Queue.isChain heap l p →
      l.getLast? = some rl →
      (l.map Prod.fst).Nodup →
      (∀ a ∈ l.map Prod.fst, a ≠ addr) →
      (∀ nd, heap rl.1 = some nd → heap2 rl.1 = some { data := nd.data, next := some addr }) →
      heap2 addr = some { data := x, next := none } →
      (∀ a ∈ l.map Prod.fst, a ≠ rl.1 → heap2 a = heap a) →
      Queue.isChain heap2 (l ++ [(addr, x)]) p
  | [], p, rl, hc, hlast, _, _, _, _, _ => by simp at hlast
  | [(a, y)], p, rl, hc, hlast, hnodup, haddr, hrear, hnew, hother => by
    obtain ⟨hp, nd, hnd, hdata, _⟩ := hc
    have hrl : rl = (a, y) := by simpa using hlast.symm
    subst hrl
    refine ⟨hp, { data := nd.data, next := some addr }, hrear nd hnd, hdata, ?_⟩
    exact ⟨rfl, { data := x, next := none }, hnew, rfl, rfl⟩
  | (a, y) :: (b, z) :: rest, p, rl, hc, hlast, hnodup, haddr, hrear, hnew, hother => by
    obtain ⟨hp, nd, hnd, hdata, hrest⟩ := hc
    have hlast2 : ((b, z) :: rest).getLast? = some rl := by
      rw [← List.getLast?_cons_cons (a := (a, y))]
      exact hlast
    have hrlmem : rl ∈ (b, z) :: rest := List.mem_of_mem_getLast? (by simp [hlast2])
    have hmem2 : rl.1 ∈ ((b, z) :: rest).map Prod.fst := List.mem_map_of_mem Prod.fst hrlmem
    have hanotr : a ≠ rl.1 := by
      intro heq
      rw [List.map_cons, List.nodup_cons] at hnodup
      exact hnodup.1 (by rw [heq]; exact hmem2)
    refine ⟨hp, nd, ?_, hdata, ?_⟩
    · rw [hother a (by simp) hanotr, hnd]
    · exact Queue.isChain_extend ((b, z) :: rest) nd.next rl hrest hlast2
        (by simpa using hnodup.of_cons) (fun c hc2 => haddr c (by simp [List.mem_cons] at hc2 ⊢; tauto))
        hrear hnew (fun c hc2 hc3 => hother c (by simp [List.mem_cons] at hc2 ⊢; tauto) hc3)

theorem Queue.wf_enqueue {T : Type} {q : Queue T} {l : List (Nat × T)}
    (hwf : q.Wf l) (x : T) : (q.enqueue x).Wf (l ++ [(q.nextAddr, x)]) := by
  obtain ⟨hchain, hrear, hcount, hnodup, hbound⟩ := hwf
  rcases l with _ | ⟨⟨a0, x0⟩, rest⟩
  · have hfront : q.frontPtr = none := hchain
    have hemp : q.isEmpty = true := by simp [Queue.isEmpty, hfront]
    simp only [Queue.enqueue, hemp, if_true, List.nil_append]
    refine ⟨⟨rfl, { data := x, next := none }, by simp, rfl, rfl⟩, by simp, ?_, by simp, ?_⟩
    · show q.count + 1 = _
      rw [hcount]
      simp
    · intro a ha
      simp only [List.map_cons, List.map_nil, List.mem_singleton] at ha
      subst ha
      show q.nextAddr < q.nextAddr + 1
      omega
  · have hfront : q.frontPtr = some a0 := hchain.1
    have hemp : q.isEmpty = false := by simp [Queue.isEmpty, hfront]
    obtain ⟨rl, hrl⟩ : ∃ rl, ((a0, x0) :: rest).getLast? = some rl := by
      cases h : ((a0, x0) :: rest).getLast? with
      | none => rw [List.getLast?_eq_none_iff] at h; simp at h
      | some rl => exact ⟨rl, rfl⟩
    have hrear2 : q.rearPtr = some rl.1 := by rw [hrear, hrl]; rfl
    simp only [Queue.enqueue, hemp, Bool.false_eq_true, if_false, hrear2]
    have hrmem : rl ∈ (a0, x0) :: rest := List.mem_of_mem_getLast? (by simp [hrl])
    have hrfst : rl.1 ∈ ((a0, x0) :: rest).map Prod.fst := List.mem_map_of_mem Prod.fst hrmem
    have hraddr : rl.1 ≠ q.nextAddr := by
      have := hbound rl.1 hrfst
      omega
    refine ⟨?_, ?_, ?_, ?_, ?_⟩
    · refine Queue.isChain_extend ((a0, x0) :: rest) q.frontPtr rl hchain hrl hnodup ?_ ?_ ?_ ?_
      · intro a ha
        have := hbound a ha
        omega
      · intro nd hnd
        dsimp only
        simp only [if_pos rfl, if_neg hraddr, hnd]
        rfl
      · dsimp only
        rw [if_neg (Ne.symm hraddr), if_pos rfl]
      · intro a ha hne
        dsimp only
        rw [if_neg hne]
        have := hbound a ha
        rw [if_neg (by omega)]
    · rw [List.getLast?_concat]
      rfl
    · show q.count + 1 = _
      rw [hcount]
      simp
    · simp only [List.map_append]
      rw [List.nodup_append]
      refine ⟨hnodup, by simp, ?_⟩
      intro a ha
      have := hbound a ha
      simp
      omega
    · intro a ha
      simp only [List.map_append, List.mem_append] at ha
      show a < q.nextAddr + 1
      cases ha with
      | inl h => have := hbound a h; omega
      | inr h => simp at h; omega

theorem Queue.wf_dequeue_empty {T : Type} {q : Queue T} (hwf : q.Wf []) :
    q.dequeue = (Except.error "Queue Underflow: Cannot dequeue from empty queue", q) := by
  have hfront : q.frontPtr = none := hwf.1
  simp [Queue.dequeue, hfront]

theorem Queue.wf_dequeue {T : Type} {q : Queue T} {a0 : Nat} {x0 : T}
    {rest : List (Nat × T)} (hwf : q.Wf ((a0, x0) :: rest)) :
    q.dequeue.1 = Except.ok x0 ∧ q.dequeue.2.Wf rest := by
  obtain ⟨hchain, hrear, hcount, hnodup, hbound⟩ := hwf
  obtain ⟨hp, nd, hnd, hdata, hrest⟩ := hchain
  simp only [Queue.dequeue, hp, hnd]
  refine ⟨by rw [hdata], ?_, ?_, ?_, ?_, ?_⟩
  · refine Queue.isChain_congr rest nd.next ?_ hrest
    intro a ha
    have hne : a ≠ a0 := by
      simp only [List.map_cons, List.nodup_cons] at hnodup
      intro heq
      exact hnodup.1 (heq ▸ ha)
    simp only [if_neg hne]
  · match hr : rest with
    | [] =>
      have hnext : nd.next = none := hrest
      simp [hnext]
    | (b, z) :: rest2 =>
      have hnext : nd.next = some b := hrest.1
      simp only [hnext]
      have : (if (some b).isNone = true then none else q.rearPtr) = q.rearPtr := by simp
      rw [this, hrear]
      rw [List.getLast?_cons_cons]
  · simp only [hcount]
    simp
  · simp only [List.map_cons, List.nodup_cons] at hnodup
    exact hnodup.2
  · intro a ha
    exact hbound a (by simp [ha])

theorem Queue.wf_enqueueList {T : Type} :
    ∀ (xs : List T) (q : Queue T) (l : List (Nat × T)), q.Wf l →
      ∃ tl : List (Nat × T), (q.enqueueList xs).Wf (l ++ tl) ∧ tl.map Prod.snd = xs
  | [], q, l, hwf => ⟨[], by simpa [Queue.enqueueList] using hwf, rfl⟩
  | x :: xs, q, l, hwf => by
    have h1 := Queue.wf_enqueue hwf x
    obtain ⟨tl2, hwf2, hsnd2⟩ :=
      Queue.wf_enqueueList xs (q.enqueue x) (l ++ [(q.nextAddr, x)]) h1
    refine ⟨(q.nextAddr, x) :: tl2, ?_, by simp [hsnd2]⟩
    simpa [Queue.enqueueList, List.foldl_cons, List.append_assoc] using hwf2

theorem Queue.wf_dequeueList {T : Type} :
    ∀ (l : List (Nat × T)) (q : Queue T), q.Wf l →
      (q.dequeueList l.length).1 = l.map (fun e => Except.ok e.2)
  | [], q, _ => by simp [Queue.dequeueList]
  | (a0, x0) :: rest, q, hwf => by
    obtain ⟨h1, h2⟩ := Queue.wf_dequeue hwf
    simp only [List.length_cons, Queue.dequeueList]
    rw [h1, Queue.wf_dequeueList rest q.dequeue.2 h2]
    simp

/-- C2: Queue FIFO law — for every element type, enqueueing e1..en into a
freshly created queue and then dequeueing n times returns exactly the
enqueued values in the same order (e1 first, en last). -/
theorem queue_fifo_law (T : Type) (xs : List T) :
    (((Queue.create T).enqueueList xs).dequeueList xs.length).1 =
      xs.map Except.ok := by
  obtain ⟨tl, hwf, hsnd⟩ :=
    Queue.wf_enqueueList xs (Queue.create T) [] (Queue.wf_create T)
  simp only [List.nil_append] at hwf
  have hlen : tl.length = xs.length := by rw [← hsnd]; simp
  have := Queue.wf_dequeueList tl _ hwf
  rw [hlen] at this
  rw [this, ← hsnd]
  simp

theorem Queue.wf_runOps {T : Type} :
    ∀ (ops : List (Queue.Op T)) (q : Queue T) (l : List (Nat × T)), q.Wf l →
      ∃ l2, (q.runOps ops).Wf l2
  | [], q, l, hwf => ⟨l, by simpa [Queue.runOps] using hwf⟩
  | op :: ops, q, l, hwf => by
    have hstep : ∃ l2, (q.applyOp op).Wf l2 := by
      cases op with
      | enq x => exact ⟨l ++ [(q.nextAddr, x)], Queue.wf_enqueue hwf x⟩
      | deq =>
        rcases l with _ | ⟨⟨a0, x0⟩, rest⟩
        · refine ⟨[], ?_⟩
          show q.dequeue.2.Wf []
          rw [Queue.wf_dequeue_empty hwf]
          exact hwf
        · exact ⟨rest, (Queue.wf_dequeue hwf).2⟩
    obtain ⟨l2, hwf2⟩ := hstep
    have := Queue.wf_runOps ops (q.applyOp op) l2 hwf2
    simpa [Queue.runOps, List.foldl_cons] using this

theorem Queue.isChain_followNext {T : Type} {heap : Nat → Option (Node T)} :
    ∀ (l : List (Nat × T)) (p : Nat) (rl : Nat × T),
      Queue.isChain heap l (some p) → l.getLast? = some rl →
      Queue.followNext heap (l.length - 1) p = some rl.1
  | [], p, rl, hc, hlast => by simp at hlast
  | [(a, y)], p, rl, hc, hlast => by
    obtain ⟨hp, nd, hnd, hdata, _⟩ := hc
    have hrl : rl = (a, y) := by simpa using hlast.symm
    subst hrl
    injection hp with hp2
    subst hp2
    rfl
  | (a, y) :: (b, z) :: rest, p, rl, hc, hlast => by
    obtain ⟨hp, nd, hnd, hdata, hrest⟩ := hc
    have hnext : nd.next = some b := hrest.1
    injection hp with hp2
    subst hp2
    rw [hnext] at hrest
    have hlast2 : ((b, z) :: rest).getLast? = some rl := by
      rw [← List.getLast?_cons_cons (a := (p, y))]
      exact hlast
    have ih := Queue.isChain_followNext ((b, z) :: rest) b rl hrest hlast2
    show Queue.followNext heap (((b, z) :: rest).length - 1 + 1) p = some rl.1
    simp only [Queue.followNext, hnd, hnext]
    simpa using ih

/-- C5: Queue structural invariant — after any sequence of enqueue and
dequeue operations on a freshly created queue, the front and rear pointers
are both null exactly when the count is 0, and otherwise the front node
reaches the rear node by following exactly `count - 1` next-links. -/
theorem queue_structural_invariant (T : Type) (ops : List (Queue.Op T)) :
    (((Queue.create T).runOps ops).frontPtr = none ∧
        ((Queue.create T).runOps ops).rearPtr = none ↔
      ((Queue.create T).runOps ops).count = 0)
    ∧ (((Queue.create T).runOps ops).count ≠ 0 →
        ∃ pf pr, ((Queue.create T).runOps ops).frontPtr = some pf
          ∧ ((Queue.create T).runOps ops).rearPtr = some pr
          ∧ Queue.followNext ((Queue.create T).runOps ops).heap
              (((Queue.create T).runOps ops).count - 1).toNat pf = some pr) := by
  obtain ⟨l, hwf⟩ := Queue.wf_runOps ops (Queue.create T) [] (Queue.wf_create T)
  set q := (Queue.create T).runOps ops with hq
  obtain ⟨hchain, hrear, hcount, hnodup, hbound⟩ := hwf
  rcases l with _ | ⟨⟨a0, x0⟩, rest⟩
  · have hfront : q.frontPtr = none := hchain
    have hrear0 : q.rearPtr = none := by rw [hrear]; rfl
    have hcount0 : q.count = 0 := by rw [hcount]; rfl
    refine ⟨by simp [hfront, hrear0, hcount0], ?_⟩
    intro hne
    exact absurd hcount0 hne
  · have hfront : q.frontPtr = some a0 := hchain.1
    obtain ⟨rl, hrl⟩ : ∃ rl, ((a0, x0) :: rest).getLast? = some rl := by
      cases h : ((a0, x0) :: rest).getLast? with
      | none => rw [List.getLast?_eq_none_iff] at h; simp at h
      | some rl => exact ⟨rl, rfl⟩
    have hrear2 : q.rearPtr = some rl.1 := by rw [hrear, hrl]; rfl
    have hcpos : q.count = ((rest.length : Int) + 1) := by rw [hcount]; simp
    constructor
    · constructor
      · intro h
        rw [hfront] at h
        exact absurd h.1 (by simp)
      · intro h
        rw [hcpos] at h
        omega
    · intro hne
      refine ⟨a0, rl.1, hfront, hrear2, ?_⟩
      have hfn := Queue.isChain_followNext ((a0, x0) :: rest) a0
        rl (hfront ▸ hchain) hrl
      have hlen : (q.count - 1).toNat = ((a0, x0) :: rest).length - 1 := by
        rw [hcpos]
        simp
      rw [hlen]
      exact hfn

/-- C4: Underflow error handling with atomicity — pop and peek on an empty
stack and dequeue and front on an empty queue always fail with the
underflow error, the container state is unchanged by the failed call, its
size stays 0, and repeating the call yields the same failure. -/
theorem underflow_error_atomicity {T : Type} (s : Stack T) (q : Queue T)
    (hs : s.isEmpty = true) (hq : q.isEmpty = true) (hqc : q.count = 0) :
    s.pop.1 = Except.error "Stack Underflow: Cannot pop from empty stack"
    ∧ s.pop.2 = s
    ∧ s.pop.2.size = 0
    ∧ s.pop.2.pop = s.pop
    ∧ s.peek = Except.error "Stack is empty: Cannot peek"
    ∧ q.dequeue.1 = Except.error "Queue Underflow: Cannot dequeue from empty queue"
    ∧ q.dequeue.2 = q
    ∧ q.dequeue.2.size = 0
    ∧ q.dequeue.2.dequeue = q.dequeue
    ∧ q.front = Except.error "Queue is empty: Cannot access front" := by
  have hse : s.pop = (Except.error "Stack Underflow: Cannot pop from empty stack", s) := by
    simp [Stack.pop, hs]
  have hfront : q.frontPtr = none := by
    simpa [Queue.isEmpty, Option.isNone_iff_eq_none] using hq
  have hqe : q.dequeue = (Except.error "Queue Underflow: Cannot dequeue from empty queue", q) := by
    simp [Queue.dequeue, hfront]
  have hsize : s.size = 0 := by
    simp only [Stack.isEmpty, decide_eq_true_eq] at hs
    simp [Stack.size, hs]
  refine ⟨by rw [hse], by rw [hse], ?_, ?_, ?_, by rw [hqe], by rw [hqe], ?_, ?_, ?_⟩
  · rw [hse]
    exact hsize
  · rw [hse]
    exact hse
  · simp [Stack.peek, hs]
  · rw [hqe]
    simpa [Queue.size] using hqc
  · rw [hqe]
    exact hqe
  · simp [Queue.front, hfront]

/-- Witness for `underflow_error_atomicity` at a fresh empty stack of
capacity 1 and a fresh queue. -/
theorem underflow_error_atomicity_witness :
    (Stack.create Int 1).isEmpty = true ∧ (Queue.create Int).isEmpty = true
    ∧ (Queue.create Int).count = 0
    ∧ (Stack.create Int 1).pop.1 =
        Except.error "Stack Underflow: Cannot pop from empty stack"
    ∧ (Queue.create Int).dequeue.1 =
        Except.error "Queue Underflow: Cannot dequeue from empty queue" :=
  ⟨by decide, by decide, by decide,
   (underflow_error_atomicity (Stack.create Int 1) (Queue.create Int)
      (by decide) (by decide) (by decide)).1,
   (underflow_error_atomicity (Stack.create Int 1) (Queue.create Int)
      (by decide) (by decide) (by decide)).2.2.2.2.2.1⟩

theorem int_toNat_lit (n : Nat) :
    (Int.toNat (no_index (OfNat.ofNat n))) = OfNat.ofNat n := rfl

namespace sorting_searching

theorem geti_eq_getElem {α : Type} [Inhabited α] {a : List α} {i : Int}
    (h1 : i.toNat < a.length) : geti a i = a[i.toNat] := by
  simp [geti, List.getD_eq_getElem?_getD, List.getElem?_eq_getElem h1]

theorem pairwise_geti {α : Type} [Inhabited α] {r : α → α → Prop} {a : List α}
    (h : a.Pairwise r) {i j : Int} (hij : i.toNat < j.toNat) (hj : j.toNat < a.length) :
    r (geti a i) (geti a j) := by
  rw [geti_eq_getElem (by omega), geti_eq_getElem hj]
  exact List.pairwise_iff_getElem.mp h i.toNat j.toNat (by omega) hj hij

theorem exists_geti_of_mem {α : Type} [Inhabited α] {a : List α} {x : α} (h : x ∈ a) :
    ∃ t : Int, 0 ≤ t ∧ t < (a.length : Int) ∧ geti a t = x := by
  obtain ⟨n, hn, he⟩ := List.mem_iff_getElem.mp h
  refine ⟨(n : Int), by omega, by omega, ?_⟩
  rw [geti_eq_getElem (by simpa using hn)]
  simpa using he

theorem linLoop_spec : ∀ (m : Nat) (arr : List Int) (target i : Int),
    ((arr.length : Int) - i).toNat = m → 0 ≤ i →
    (∃ t : Int, i ≤ t ∧ t < (arr.length : Int) ∧ geti arr t = target) →
    0 ≤ linLoop arr target i ∧ linLoop arr target i < (arr.length : Int) ∧
      geti arr (linLoop arr target i) = target := by
  intro m
  induction m using Nat.strong_induction_on with
  | _ m ih =>
    intro arr target i hm h0 hex
    obtain ⟨t, ht1, ht2, ht3⟩ := hex
    rw [linLoop]
    have hlt : i < (arr.length : Int) := by omega
    rw [dif_pos hlt]
    by_cases hc : geti arr i = target
    · rw [if_pos hc]
      exact ⟨h0, hlt, hc⟩
    · rw [if_neg hc]
      have hne : t ≠ i := fun he => hc (he ▸ ht3)
      exact ih ((arr.length : Int) - (i + 1)).toNat (by omega) arr target (i + 1) rfl
        (by omega) ⟨t, by omega, ht2, ht3⟩

theorem bsLoop_eq (arr : List Int) (target left right : Int) (h : left ≤ right) :
    bsLoop arr target left right =
      if geti arr (left + (right - left) / 2) = target then left + (right - left) / 2
      else if geti arr (left + (right - left) / 2) < target then
        bsLoop arr target (left + (right - left) / 2 + 1) right
      else bsLoop arr target left (left + (right - left) / 2 - 1) := by
  rw [bsLoop]
  simp only [dif_pos h]

theorem bsLoop_spec : ∀ (m : Nat) (arr : List Int) (target left right : Int),
    (right + 1 - left).toNat = m → 0 ≤ left → right < (arr.length : Int) →
    arr.Pairwise (· ≤ ·) →
    (∃ t : Int, left ≤ t ∧ t ≤ right ∧ geti arr t = target) →
    0 ≤ bsLoop arr target left right ∧ bsLoop arr target left right < (arr.length : Int) ∧
      geti arr (bsLoop arr target left right) = target := by
  intro m
  induction m using Nat.strong_induction_on with
  | _ m ih =>
    intro arr target left right hm h0 hlen hsort hex
    obtain ⟨t, ht1, ht2, ht3⟩ := hex
    have hle : left ≤ right := le_trans ht1 ht2
    have hd1 : 0 ≤ (right - left) / 2 := Int.ediv_nonneg (by omega) (by omega)
    have hd2 : (right - left) / 2 ≤ right - left := Int.ediv_le_self _ (by omega)
    rw [bsLoop_eq arr target left right hle]
    by_cases hc : geti arr (left + (right - left) / 2) = target
    · rw [if_pos hc]
      exact ⟨by omega, by omega, hc⟩
    · rw [if_neg hc]
      by_cases hc2 : geti arr (left + (right - left) / 2) < target
      · rw [if_pos hc2]
        have htm : left + (right - left) / 2 + 1 ≤ t := by
          by_contra hcon
          have htlt : t ≤ left + (right - left) / 2 := by omega
          rcases eq_or_lt_of_le htlt with he | hlt2
          · exact hc (he ▸ ht3)
          · have := pairwise_geti hsort (i := t) (j := left + (right - left) / 2)
              (by omega) (by omega)
            omega
        exact ih (right + 1 - (left + (right - left) / 2 + 1)).toNat (by omega) arr target
          (left + (right - left) / 2 + 1) right rfl (by omega) hlen hsort
          ⟨t, htm, ht2, ht3⟩
      · rw [if_neg hc2]
        have htm : t ≤ left + (right - left) / 2 - 1 := by
          by_contra hcon
          have htge : left + (right - left) / 2 ≤ t := by omega
          rcases eq_or_lt_of_le htge with he | hlt2
          · exact hc (he ▸ ht3)
          · have := pairwise_geti hsort (i := left + (right - left) / 2) (j := t)
              (by omega) (by omega)
            omega
        exact ih (left + (right - left) / 2 - 1 + 1 - left).toNat (by omega) arr target
          left (left + (right - left) / 2 - 1) rfl h0 (by omega) hsort
          ⟨t, ht1, htm, ht3⟩

end sorting_searching

/-- C8 counterexample: on the ascending array `[1, 1, 1]`, which contains
the target 1, linear search returns index 0 but binary search probes the
middle first and returns index 1, so the two do not agree on the index. -/
theorem search_agreement_counterexample :
    List.Pairwise (· ≤ ·) ([1, 1, 1] : List Int) ∧ (1 : Int) ∈ ([1, 1, 1] : List Int)
    ∧ sorting_searching.linearSearch [1, 1, 1] 1 = 0
    ∧ sorting_searching.binarySearch [1, 1, 1] 1 = 1
    ∧ sorting_searching.linearSearch [1, 1, 1] 1 ≠
        sorting_searching.binarySearch [1, 1, 1] 1 := by
  refine ⟨by decide, by decide, ?_, ?_, ?_⟩
  · rw [sorting_searching.linearSearch]
    rw [sorting_searching.linLoop]
    norm_num [sorting_searching.geti, int_toNat_lit]
  · rw [sorting_searching.binarySearch]
    rw [sorting_searching.bsLoop]
    norm_num [sorting_searching.geti, int_toNat_lit]
  · rw [sorting_searching.linearSearch, sorting_searching.binarySearch]
    rw [sorting_searching.linLoop]
    norm_num [sorting_searching.geti, int_toNat_lit]
    rw [sorting_searching.bsLoop]
    norm_num [sorting_searching.geti, int_toNat_lit]

/-- C8 (amended): on every ascending array containing the target, linear
search and binary search each return a valid index holding the target
(they agree whenever the target occurs at exactly one index, but can
differ under duplicates); concretely, binary search on `[2, 4, 6, 8, 10]`
returns index 2 for target 6 and the sentinel `-1` for target 5. -/
theorem searches_find_target (arr : List Int) (target : Int)
    (hsorted : arr.Pairwise (· ≤ ·)) (hmem : target ∈ arr) :
    (0 ≤ sorting_searching.linearSearch arr target
      ∧ sorting_searching.linearSearch arr target < (arr.length : Int)
      ∧ sorting_searching.geti arr (sorting_searching.linearSearch arr target) = target)
    ∧ (0 ≤ sorting_searching.binarySearch arr target
      ∧ sorting_searching.binarySearch arr target < (arr.length : Int)
      ∧ sorting_searching.geti arr (sorting_searching.binarySearch arr target) = target)
    ∧ ((∃! t : Int, 0 ≤ t ∧ t < (arr.length : Int) ∧
          sorting_searching.geti arr t = target) →
        sorting_searching.linearSearch arr target =
          sorting_searching.binarySearch arr target)
    ∧ sorting_searching.binarySearch [2, 4, 6, 8, 10] 6 = 2
    ∧ sorting_searching.binarySearch [2, 4, 6, 8, 10] 5 = -1 := by
  obtain ⟨t, ht1, ht2, ht3⟩ := sorting_searching.exists_geti_of_mem hmem
  have hlin := sorting_searching.linLoop_spec ((arr.length : Int) - 0).toNat arr target 0
    rfl le_rfl ⟨t, ht1, ht2, ht3⟩
  have hbin := sorting_searching.bsLoop_spec ((arr.length : Int) - 1 + 1 - 0).toNat arr
    target 0 ((arr.length : Int) - 1) rfl le_rfl (by omega) hsorted
    ⟨t, ht1, by omega, ht3⟩
  rw [sorting_searching.linearSearch]
  rw [sorting_searching.binarySearch]
  refine ⟨hlin, hbin, ?_, ?_, ?_⟩
  · intro hu
    obtain ⟨u, hu1, hu2⟩ := hu
    have e1 := hu2 _ ⟨hlin.1, hlin.2.1, hlin.2.2⟩
    have e2 := hu2 _ ⟨hbin.1, hbin.2.1, hbin.2.2⟩
    rw [e1, e2]
  · rw [sorting_searching.binarySearch]
    rw [sorting_searching.bsLoop]
    norm_num [sorting_searching.geti, int_toNat_lit]
  · rw [sorting_searching.binarySearch]
    rw [sorting_searching.bsLoop]
    norm_num [sorting_searching.geti, int_toNat_lit]
    rw [sorting_searching.bsLoop]
    norm_num [sorting_searching.geti, int_toNat_lit]
    rw [sorting_searching.bsLoop]
    norm_num [sorting_searching.geti, int_toNat_lit]
    rw [sorting_searching.bsLoop]
    norm_num

/-- Witness for `searches_find_target` on the sorted array
`[2, 4, 6, 8, 10]` with target 6. -/
theorem searches_find_target_witness :
    List.Pairwise (· ≤ ·) ([2, 4, 6, 8, 10] : List Int)
    ∧ (6 : Int) ∈ ([2, 4, 6, 8, 10] : List Int)
    ∧ sorting_searching.binarySearch [2, 4, 6, 8, 10] 6 = 2 :=
  ⟨by decide, by decide,
   (searches_find_target [2, 4, 6, 8, 10] 6 (by decide) (by decide)).2.2.2.1⟩

namespace sorting_searching

variable {α : Type} [Inhabited α]

theorem length_seti (a : List α) (i : Int) (x : α) : (seti a i x).length = a.length := by
  simp [seti]

theorem length_swapa (a : List α) (i j : Int) : (swapa a i j).length = a.length := by
  simp [swapa, seti]

theorem geti_seti_self {a : List α} {i : Int} (h : i.toNat < a.length) (x : α) :
    geti (seti a i x) i = x := by
  rw [geti_eq_getElem (by simpa [seti] using h)]
  simp [seti]

theorem geti_seti_ne {a : List α} {i j : Int} (h : i.toNat ≠ j.toNat) (x : α) :
    geti (seti a i x) j = geti a j := by
  simp only [geti, seti]
  rw [List.getD_eq_getElem?_getD, List.getD_eq_getElem?_getD, List.getElem?_set_ne h]

theorem geti_swapa_right {a : List α} {i j : Int} (hj : j.toNat < a.length) :
    geti (swapa a i j) j = geti a i := by
  simp only [swapa]
  exact geti_seti_self (by simpa [seti] using hj) _

theorem geti_swapa_left {a : List α} {i j : Int} (hi : i.toNat < a.length)
    (hne : i.toNat ≠ j.toNat) : geti (swapa a i j) i = geti a j := by
  simp only [swapa]
  rw [geti_seti_ne (fun he => hne he.symm), geti_seti_self hi]

theorem geti_swapa_other {a : List α} {i j t : Int} (h1 : t.toNat ≠ i.toNat)
    (h2 : t.toNat ≠ j.toNat) : geti (swapa a i j) t = geti a t := by
  simp only [swapa]
  rw [geti_seti_ne (fun he => h2 he.symm), geti_seti_ne (fun he => h1 he.symm)]

theorem perm_cons_set {β : Type} : ∀ (t : List β) (k : Nat) (x : β) (hk : k < t.length),
    List.Perm (t[k] :: t.set k x) (x :: t)
  | [], k, x, hk => absurd hk (by simp)
  | y :: t2, 0, x, hk => by
    simp only [List.getElem_cons_zero, List.set_cons_zero]
    exact List.Perm.swap x y t2
  | y :: t2, k + 1, x, hk => by
    have hk2 : k < t2.length := by simpa using hk
    simp only [List.getElem_cons_succ, List.set_cons_succ]
    refine List.Perm.trans (List.Perm.swap _ _ _) ?_
    refine List.Perm.trans ((perm_cons_set t2 k x hk2).cons y) ?_
    exact List.Perm.swap _ _ _

theorem perm_set_set : ∀ (a : List α) (m n : Nat), m < a.length → n < a.length →
    List.Perm ((a.set m (a.getD n default)).set n (a.getD m default)) a
  | [], m, n, hm, _ => absurd hm (by simp)
  | x :: t, 0, 0, _, _ => by simp
  | x :: t, 0, k + 1, hm, hn => by
    have hk : k < t.length := by simpa using hn
    simp only [List.getD_cons_succ, List.getD_cons_zero, List.set_cons_zero,
      List.set_cons_succ]
    rw [List.getD_eq_getElem?_getD, List.getElem?_eq_getElem hk]
    simpa using perm_cons_set t k x hk
  | x :: t, j + 1, 0, hm, hn => by
    have hj : j < t.length := by simpa using hm
    simp only [List.getD_cons_succ, List.getD_cons_zero, List.set_cons_zero,
      List.set_cons_succ]
    rw [List.getD_eq_getElem?_getD, List.getElem?_eq_getElem hj]
    simpa using perm_cons_set t j x hj
  | x :: t, j + 1, k + 1, hm, hn => by
    simp only [List.getD_cons_succ, List.set_cons_succ]
    exact (perm_set_set t j k (by simpa using hm) (by simpa using hn)).cons x

theorem perm_swapa {a : List α} {i j : Int} (hi : i.toNat < a.length)
    (hj : j.toNat < a.length) : List.Perm (swapa a i j) a := by
  simp only [swapa, seti, geti]
  exact perm_set_set a i.toNat j.toNat hi hj

theorem set_set_adj_decomp : ∀ (a : List α) (jn : Nat), jn + 1 < a.length →
    (a.set jn (a.getD (jn + 1) default)).set (jn + 1) (a.getD jn default) =
      a.take jn ++ a.getD (jn + 1) default :: a.getD jn default :: a.drop (jn + 2)
  | [], jn, h => absurd h (by simp)
  | [x], 0, h => absurd h (by simp)
  | x :: y :: t, 0, _ => by simp
  | x :: t, jn + 1, h => by
    simp only [List.getD_cons_succ, List.set_cons_succ, List.take_succ_cons,
      List.drop_succ_cons]
    rw [set_set_adj_decomp t jn (by simpa using h)]
    simp

theorem cons_getD_decomp {a : List α} {jn : Nat} (h : jn + 1 < a.length) :
    a = a.take jn ++ a.getD jn default :: a.getD (jn + 1) default :: a.drop (jn + 2) := by
  conv_lhs => rw [← List.take_append_drop jn a]
  congr 1
  rw [List.drop_eq_getElem_cons (by omega)]
  rw [List.drop_eq_getElem_cons (n := jn + 1) (by omega)]
  rw [List.getD_eq_getElem?_getD, List.getElem?_eq_getElem (by omega)]
  rw [List.getD_eq_getElem?_getD, List.getElem?_eq_getElem (by omega)]
  simp

theorem filter_swapa_adj {a : List α} {j : Int} (P : α → Bool) (hj : 0 ≤ j)
    (h1 : j.toNat + 1 < a.length)
    (hP : ¬(P (geti a j) = true ∧ P (geti a (j + 1)) = true)) :
    (swapa a j (j + 1)).filter P = a.filter P := by
  have hjn : (j + 1).toNat = j.toNat + 1 := by omega
  have hsw : swapa a j (j + 1) =
      a.take j.toNat ++ a.getD (j.toNat + 1) default ::
        a.getD j.toNat default :: a.drop (j.toNat + 2) := by
    simp only [swapa, seti, geti, hjn]
    exact set_set_adj_decomp a j.toNat h1
  rw [hsw]
  conv_rhs => rw [cons_getD_decomp h1]
  simp only [geti, hjn, List.getD_eq_getElem?_getD] at hP
  simp only [List.getD_eq_getElem?_getD, List.filter_append, List.filter_cons]
  by_cases hx : P (a[j.toNat]?.getD default) = true
  · have hy : ¬(P (a[j.toNat + 1]?.getD default) = true) := fun hh => hP ⟨hx, hh⟩
    simp [hx, hy]
  · by_cases hy : P (a[j.toNat + 1]?.getD default) = true <;> simp [hx, hy]

theorem geti_natCast (a : List α) (n : Nat) (h : n < a.length) :
    geti a (n : Int) = a[n] := by
  have e : ((n : Int)).toNat = n := by omega
  rw [geti, e, List.getD_eq_getElem?_getD, List.getElem?_eq_getElem h]
  rfl

theorem pairwise_of_geti_adj {v : α → Int} {b : List α}
    (h : ∀ t : Int, 0 ≤ t → t + 1 < (b.length : Int) → v (geti b t) ≤ v (geti b (t + 1))) :
    b.Pairwise (fun x y => v x ≤ v y) := by
  have mono : ∀ (k i : Nat) (hik : i + k < b.length), v b[i] ≤ v b[i + k] := by
    intro k
    induction k with
    | zero => intro i hi; simp
    | succ k ih =>
      intro i hi
      have h1 : v b[i] ≤ v b[i + k] := ih i (by omega)
      have h2 := h ((i + k : Nat) : Int) (by omega) (by push_cast; omega)
      rw [geti_natCast b (i + k) (by omega)] at h2
      have e : ((i + k : Nat) : Int) + 1 = ((i + k + 1 : Nat) : Int) := by push_cast; ring
      rw [e, geti_natCast b (i + k + 1) (by omega)] at h2
      exact h1.trans h2
  rw [List.pairwise_iff_getElem]
  intro p q hp hq hpq
  have hm := mono (q - p) p (by omega)
  convert hm using 3
  omega

end sorting_searching

namespace sorting_searching

variable {α : Type} [Inhabited α]

theorem bubbleInner_spec (v : α → Int) :
    ∀ (m : Nat) (a : List α) (bound j : Int) (s : Bool),
    (bound - j).toNat = m → 0 ≤ j → bound < (a.length : Int) →
    ((bubbleInner v a bound j s).1.length = a.length)
    ∧ List.Perm (bubbleInner v a bound j s).1 a
    ∧ (∀ t : Int, 0 ≤ t → (t < j ∨ bound < t) →
        geti (bubbleInner v a bound j s).1 t = geti a t)
    ∧ (∀ t : Int, j ≤ t → t ≤ bound →
        v (geti a t) ≤ v (geti (bubbleInner v a bound j s).1 bound))
    ∧ (∀ t : Int, j ≤ t → t ≤ bound →
        v (geti (bubbleInner v a bound j s).1 t) ≤
          v (geti (bubbleInner v a bound j s).1 bound))
    ∧ (∀ t : Int, j ≤ t → t ≤ bound → ∃ u : Int, j ≤ u ∧ u ≤ bound ∧
        geti (bubbleInner v a bound j s).1 t = geti a u)
    ∧ (s = true → (bubbleInner v a bound j s).2 = true)
    ∧ ((bubbleInner v a bound j s).2 = false →
        s = false ∧ (bubbleInner v a bound j s).1 = a
        ∧ ∀ t : Int, j ≤ t → t < bound → v (geti a t) ≤ v (geti a (t + 1)))
    ∧ (∀ k : Int, ((bubbleInner v a bound j s).1).filter (fun x => v x == k) =
        a.filter (fun x => v x == k)) := by
  intro m
  induction m using Nat.strong_induction_on with
  | _ m ih =>
    intro a bound j s hm h0 hblen
    by_cases hj : j < bound
    · rw [bubbleInner, dif_pos hj]
      have hjn : j.toNat < a.length := by omega
      have hjn1 : (j + 1).toNat < a.length := by omega
      have hne : j.toNat ≠ (j + 1).toNat := by omega
      by_cases hc : v (geti a j) > v (geti a (j + 1))
      · rw [if_pos hc]
        obtain ⟨ihLen, ihPerm, ihUn, ihMaxA, ihMaxR, ihMem, ihSw, ihSwF, ihFil⟩ :=
          ih (bound - (j + 1)).toNat (by omega) (swapa a j (j + 1)) bound (j + 1) true
            rfl (by omega) (by rw [length_swapa]; omega)
        have hg1 : geti (swapa a j (j + 1)) j = geti a (j + 1) :=
          geti_swapa_left hjn hne
        have hg2 : geti (swapa a j (j + 1)) (j + 1) = geti a j :=
          geti_swapa_right hjn1
        have hg3 : ∀ t : Int, 0 ≤ t → t ≠ j → t ≠ j + 1 →
            geti (swapa a j (j + 1)) t = geti a t := by
          intro t ht0 htj htj1
          exact geti_swapa_other (by omega) (by omega)
        have hLen : (bubbleInner v (swapa a j (j + 1)) bound (j + 1) true).1.length =
            a.length := by rw [ihLen, length_swapa]
        have hPerm := ihPerm.trans (perm_swapa hjn hjn1)
        have hUn : ∀ t : Int, 0 ≤ t → (t < j ∨ bound < t) →
            geti (bubbleInner v (swapa a j (j + 1)) bound (j + 1) true).1 t = geti a t := by
          intro t ht0 htr
          rw [ihUn t ht0 (by omega), hg3 t ht0 (by omega) (by omega)]
        have hMaxA : ∀ t : Int, j ≤ t → t ≤ bound →
            v (geti a t) ≤
              v (geti (bubbleInner v (swapa a j (j + 1)) bound (j + 1) true).1 bound) := by
          intro t ht1 ht2
          by_cases he1 : t = j
          · rw [he1]
            have h2 := ihMaxA (j + 1) (by omega) (by omega)
            rwa [hg2] at h2
          · by_cases he2 : t = j + 1
            · rw [he2]
              have h2 := ihMaxA (j + 1) (by omega) (by omega)
              rw [hg2] at h2
              omega
            · have h2 := ihMaxA t (by omega) ht2
              rwa [hg3 t (by omega) he1 he2] at h2
        have hMaxR : ∀ t : Int, j ≤ t → t ≤ bound →
            v (geti (bubbleInner v (swapa a j (j + 1)) bound (j + 1) true).1 t) ≤
              v (geti (bubbleInner v (swapa a j (j + 1)) bound (j + 1) true).1 bound) := by
          intro t ht1 ht2
          by_cases he1 : t = j
          · rw [he1]
            rw [ihUn j (by omega) (by omega), hg1]
            have h2 := ihMaxA (j + 1) (by omega) (by omega)
            rw [hg2] at h2
            omega
          · exact ihMaxR t (by omega) ht2
        have hMem : ∀ t : Int, j ≤ t → t ≤ bound → ∃ u : Int, j ≤ u ∧ u ≤ bound ∧
            geti (bubbleInner v (swapa a j (j + 1)) bound (j + 1) true).1 t = geti a u := by
          intro t ht1 ht2
          by_cases he1 : t = j
          · rw [he1]
            refine ⟨j + 1, by omega, by omega, ?_⟩
            rw [ihUn j (by omega) (by omega), hg1]
          · obtain ⟨u, hu1, hu2, hu3⟩ := ihMem t (by omega) ht2
            by_cases he2 : u = j + 1
            · refine ⟨j, le_refl j, by omega, ?_⟩
              rw [hu3, he2, hg2]
            · exact ⟨u, by omega, hu2, by rw [hu3, hg3 u (by omega) (by omega) he2]⟩
        have hSw : (bubbleInner v (swapa a j (j + 1)) bound (j + 1) true).2 = true :=
          ihSw rfl
        refine ⟨hLen, hPerm, hUn, hMaxA, hMaxR, hMem, fun _ => hSw, ?_, ?_⟩
        · intro hfalse
          rw [hSw] at hfalse
          exact absurd hfalse (by simp)
        · intro k
          rw [ihFil k]
          refine filter_swapa_adj _ h0 (by omega) ?_
          intro hh
          obtain ⟨hx, hy⟩ := hh
          simp only [beq_iff_eq] at hx hy
          omega
      · rw [if_neg hc]
        have hle : v (geti a j) ≤ v (geti a (j + 1)) := by omega
        obtain ⟨ihLen, ihPerm, ihUn, ihMaxA, ihMaxR, ihMem, ihSw, ihSwF, ihFil⟩ :=
          ih (bound - (j + 1)).toNat (by omega) a bound (j + 1) s rfl (by omega) hblen
        have hMaxA : ∀ t : Int, j ≤ t → t ≤ bound →
            v (geti a t) ≤ v (geti (bubbleInner v a bound (j + 1) s).1 bound) := by
          intro t ht1 ht2
          by_cases he1 : t = j
          · rw [he1]
            exact hle.trans (ihMaxA (j + 1) (by omega) (by omega))
          · exact ihMaxA t (by omega) ht2
        refine ⟨ihLen, ihPerm, ?_, hMaxA, ?_, ?_, ihSw, ?_, ihFil⟩
        · intro t ht0 htr
          exact ihUn t ht0 (by omega)
        · intro t ht1 ht2
          by_cases he1 : t = j
          · rw [he1]
            rw [ihUn j (by omega) (by omega)]
            exact hle.trans (ihMaxA (j + 1) (by omega) (by omega))
          · exact ihMaxR t (by omega) ht2
        · intro t ht1 ht2
          by_cases he1 : t = j
          · rw [he1]
            exact ⟨j, le_refl j, by omega, ihUn j (by omega) (by omega)⟩
          · obtain ⟨u, hu1, hu2, hu3⟩ := ihMem t (by omega) ht2
            exact ⟨u, by omega, hu2, hu3⟩
        · intro hfalse
          obtain ⟨hs, ha, hsort⟩ := ihSwF hfalse
          refine ⟨hs, ha, ?_⟩
          intro t ht1 ht2
          by_cases he1 : t = j
          · rw [he1]
            exact hle
          · exact hsort t (by omega) ht2
    · rw [bubbleInner, dif_neg hj]
      refine ⟨rfl, List.Perm.refl a, fun t _ _ => rfl, ?_, ?_, ?_, fun h => h, ?_, fun k => rfl⟩
      · intro t ht1 ht2
        have he : t = bound := by omega
        rw [he]
      · intro t ht1 ht2
        have he : t = bound := by omega
        rw [he]
      · intro t ht1 ht2
        exact ⟨t, ht1, ht2, rfl⟩
      · intro hfalse
        exact ⟨hfalse, rfl, fun t ht1 ht2 => absurd (lt_of_le_of_lt ht1 ht2) hj⟩

end sorting_searching

namespace sorting_searching

variable {α : Type} [Inhabited α]

theorem bubbleOuter_spec (v : α → Int) :
    ∀ (m : Nat) (a : List α) (i : Int),
    ((a.length : Int) - 1 - i).toNat = m → 0 ≤ i →
    (∀ t : Int, (a.length : Int) - i ≤ t → t + 1 < (a.length : Int) →
      v (geti a t) ≤ v (geti a (t + 1))) →
    (∀ p t : Int, 0 ≤ p → p < (a.length : Int) - i → (a.length : Int) - i ≤ t →
      t < (a.length : Int) → v (geti a p) ≤ v (geti a t)) →
    ((bubbleOuter v a i).length = a.length)
    ∧ List.Perm (bubbleOuter v a i) a
    ∧ (∀ t : Int, 0 ≤ t → t + 1 < (a.length : Int) →
        v (geti (bubbleOuter v a i) t) ≤ v (geti (bubbleOuter v a i) (t + 1)))
    ∧ (∀ k : Int, (bubbleOuter v a i).filter (fun x => v x == k) =
        a.filter (fun x => v x == k)) := by
  intro m
  induction m using Nat.strong_induction_on with
  | _ m ih =>
    intro a i hm h0 hInvA hInvB
    by_cases hi : i < (a.length : Int) - 1
    · rw [bubbleOuter, dif_pos hi]
      obtain ⟨hLen, hPerm, hUn, hMaxA, hMaxR, hMem, hSw, hSwF, hFil⟩ :=
        bubbleInner_spec v ((a.length : Int) - 1 - i - 0).toNat a
          ((a.length : Int) - 1 - i) 0 false rfl le_rfl (by omega)
      by_cases hs2 : (bubbleInner v a ((a.length : Int) - 1 - i) 0 false).2 = true
      · rw [if_pos hs2]
        have hplen : (bubbleInner v a ((a.length : Int) - 1 - i) 0 false).1.length =
            a.length := hLen
        have hInvA2 : ∀ t : Int,
            ((bubbleInner v a ((a.length : Int) - 1 - i) 0 false).1.length : Int) - (i + 1) ≤ t →
            t + 1 < ((bubbleInner v a ((a.length : Int) - 1 - i) 0 false).1.length : Int) →
            v (geti (bubbleInner v a ((a.length : Int) - 1 - i) 0 false).1 t) ≤
              v (geti (bubbleInner v a ((a.length : Int) - 1 - i) 0 false).1 (t + 1)) := by
          rw [hplen]
          intro t ht1 ht2
          by_cases he : t = (a.length : Int) - 1 - i
          · obtain ⟨u, hu1, hu2, hu3⟩ := hMem t (by omega) (by omega)
            rw [hu3, hUn (t + 1) (by omega) (by omega)]
            exact hInvB u (t + 1) (by omega) (by omega) (by omega) (by omega)
          · rw [hUn t (by omega) (by omega), hUn (t + 1) (by omega) (by omega)]
            exact hInvA t (by omega) (by omega)
        have hInvB2 : ∀ pp tt : Int, 0 ≤ pp →
            pp < ((bubbleInner v a ((a.length : Int) - 1 - i) 0 false).1.length : Int) - (i + 1) →
            ((bubbleInner v a ((a.length : Int) - 1 - i) 0 false).1.length : Int) - (i + 1) ≤ tt →
            tt < ((bubbleInner v a ((a.length : Int) - 1 - i) 0 false).1.length : Int) →
            v (geti (bubbleInner v a ((a.length : Int) - 1 - i) 0 false).1 pp) ≤
              v (geti (bubbleInner v a ((a.length : Int) - 1 - i) 0 false).1 tt) := by
          rw [hplen]
          intro pp tt hp0 hp1 ht1 ht2
          by_cases he : tt = (a.length : Int) - 1 - i
          · rw [he]
            exact hMaxR pp (by omega) (by omega)
          · obtain ⟨u, hu1, hu2, hu3⟩ := hMem pp (by omega) (by omega)
            rw [hu3, hUn tt (by omega) (by omega)]
            exact hInvB u tt (by omega) (by omega) (by omega) (by omega)
        obtain ⟨ihLen, ihPerm, ihSort, ihFil⟩ :=
          ih (((a.length : Int) - 1 - (i + 1)).toNat) (by omega)
            (bubbleInner v a ((a.length : Int) - 1 - i) 0 false).1 (i + 1)
            (by rw [hplen]) (by omega) hInvA2 hInvB2
        refine ⟨by rw [ihLen, hplen], ihPerm.trans hPerm, ?_, ?_⟩
        · intro t ht1 ht2
          exact ihSort t ht1 (by rw [hplen]; omega)
        · intro k
          rw [ihFil k, hFil k]
      · rw [if_neg hs2]
        obtain ⟨hsf, hunch, hadj⟩ := hSwF (by simpa using hs2)
        rw [hunch]
        refine ⟨rfl, List.Perm.refl a, ?_, fun k => rfl⟩
        intro t ht1 ht2
        by_cases he1 : t < (a.length : Int) - 1 - i
        · exact hadj t (by omega) (by omega)
        · by_cases he2 : t = (a.length : Int) - 1 - i
          · exact hInvB t (t + 1) (by omega) (by omega) (by omega) (by omega)
          · exact hInvA t (by omega) (by omega)
    · rw [bubbleOuter, dif_neg hi]
      refine ⟨rfl, List.Perm.refl a, ?_, fun k => rfl⟩
      intro t ht1 ht2
      by_cases he1 : (a.length : Int) - i ≤ t
      · exact hInvA t he1 ht2
      · exact hInvB t (t + 1) (by omega) (by omega) (by omega) (by omega)

theorem bubbleSort_perm (v : α → Int) (a : List α) :
    List.Perm (bubbleSort v a) a := by
  obtain ⟨_, hPerm, _, _⟩ :=
    bubbleOuter_spec v ((a.length : Int) - 1 - 0).toNat a 0 rfl le_rfl
      (fun t ht1 ht2 => by omega) (fun p t hp1 hp2 ht1 ht2 => by omega)
  exact hPerm

theorem bubbleSort_sorted (v : α → Int) (a : List α) :
    (bubbleSort v a).Pairwise (fun x y => v x ≤ v y) := by
  obtain ⟨hLen, hPerm, hSort, _⟩ :=
    bubbleOuter_spec v ((a.length : Int) - 1 - 0).toNat a 0 rfl le_rfl
      (fun t ht1 ht2 => by omega) (fun p t hp1 hp2 ht1 ht2 => by omega)
  refine pairwise_of_geti_adj ?_
  intro t ht1 ht2
  rw [bubbleSort] at *
  exact hSort t ht1 (by rw [← hLen]; exact ht2)

theorem bubbleSort_filter (v : α → Int) (a : List α) (k : Int) :
    keyFilter v k (bubbleSort v a) = keyFilter v k a := by
  obtain ⟨_, _, _, hFil⟩ :=
    bubbleOuter_spec v ((a.length : Int) - 1 - 0).toNat a 0 rfl le_rfl
      (fun t ht1 ht2 => by omega) (fun p t hp1 hp2 ht1 ht2 => by omega)
  exact hFil k

end sorting_searching

namespace sorting_searching

variable {α : Type} [Inhabited α]

theorem selectMin_spec (v : α → Int) : ∀ (m : Nat) (a : List α) (j minIdx : Int),
    ((a.length : Int) - j).toNat = m →
    (selectMin v a j minIdx = minIdx ∨
      (j ≤ selectMin v a j minIdx ∧ selectMin v a j minIdx < (a.length : Int)))
    ∧ v (geti a (selectMin v a j minIdx)) ≤ v (geti a minIdx)
    ∧ (∀ t : Int, j ≤ t → t < (a.length : Int) →
        v (geti a (selectMin v a j minIdx)) ≤ v (geti a t)) := by
  intro m
  induction m using Nat.strong_induction_on with
  | _ m ih =>
    intro a j minIdx hm
    by_cases hj : j < (a.length : Int)
    · rw [selectMin, dif_pos hj]
      by_cases hc : v (geti a j) < v (geti a minIdx)
      · rw [if_pos hc]
        obtain ⟨ih1, ih2, ih3⟩ := ih ((a.length : Int) - (j + 1)).toNat (by omega) a (j + 1) j rfl
        have hrb : j ≤ selectMin v a (j + 1) j ∧ selectMin v a (j + 1) j < (a.length : Int) := by
          rcases ih1 with he | hr
          · rw [he]
            exact ⟨le_refl j, hj⟩
          · exact ⟨by omega, hr.2⟩
        refine ⟨Or.inr hrb, by omega, ?_⟩
        intro t ht1 ht2
        by_cases he : t = j
        · rw [he]
          exact ih2
        · exact ih3 t (by omega) ht2
      · rw [if_neg hc]
        obtain ⟨ih1, ih2, ih3⟩ :=
          ih ((a.length : Int) - (j + 1)).toNat (by omega) a (j + 1) minIdx rfl
        refine ⟨?_, ih2, ?_⟩
        · rcases ih1 with he | hr
          · exact Or.inl he
          · exact Or.inr ⟨by omega, hr.2⟩
        · intro t ht1 ht2
          by_cases he : t = j
          · rw [he]
            omega
          · exact ih3 t (by omega) ht2
    · rw [selectMin, dif_neg hj]
      exact ⟨Or.inl rfl, le_refl _, fun t ht1 ht2 => absurd (lt_of_le_of_lt ht1 ht2) hj⟩

theorem selectionOuter_spec (v : α → Int) :
    ∀ (m : Nat) (a : List α) (i : Int),
    ((a.length : Int) - 1 - i).toNat = m → 0 ≤ i →
    (∀ t : Int, 0 ≤ t → t + 1 < i → v (geti a t) ≤ v (geti a (t + 1))) →
    (∀ p t : Int, 0 ≤ p → p < i → i ≤ t → t < (a.length : Int) →
      v (geti a p) ≤ v (geti a t)) →
    ((selectionOuter v a i).length = a.length)
    ∧ List.Perm (selectionOuter v a i) a
    ∧ (∀ t : Int, 0 ≤ t → t + 1 < (a.length : Int) →
        v (geti (selectionOuter v a i) t) ≤ v (geti (selectionOuter v a i) (t + 1))) := by
  intro m
  induction m using Nat.strong_induction_on with
  | _ m ih =>
    intro a i hm h0 hPre hB
    by_cases hi : i < (a.length : Int) - 1
    · rw [selectionOuter, dif_pos hi]
      obtain ⟨hm1, hm2, hm3⟩ :=
        selectMin_spec v ((a.length : Int) - (i + 1)).toNat a (i + 1) i rfl
      have hrb : i ≤ selectMin v a (i + 1) i ∧ selectMin v a (i + 1) i < (a.length : Int) := by
        rcases hm1 with he | hr
        · rw [he]
          exact ⟨le_refl i, by omega⟩
        · exact ⟨by omega, hr.2⟩
      have hcov : ∀ t : Int, i ≤ t → t < (a.length : Int) →
          v (geti a (selectMin v a (i + 1) i)) ≤ v (geti a t) := by
        intro t ht1 ht2
        by_cases he : t = i
        · rw [he]
          exact hm2
        · exact hm3 t (by omega) ht2
      have hgi : geti (swapa a i (selectMin v a (i + 1) i)) i =
          geti a (selectMin v a (i + 1) i) := by
        by_cases he : i = selectMin v a (i + 1) i
        · rw [← he]
          rw [geti_swapa_right (by omega)]
        · exact geti_swapa_left (by omega) (by omega)
      have hgr : geti (swapa a i (selectMin v a (i + 1) i)) (selectMin v a (i + 1) i) =
          geti a i := geti_swapa_right (by omega)
      have hgo : ∀ t : Int, 0 ≤ t → t ≠ i → t ≠ selectMin v a (i + 1) i →
          geti (swapa a i (selectMin v a (i + 1) i)) t = geti a t := by
        intro t ht0 ht1 ht2
        exact geti_swapa_other (by omega) (by omega)
      have hPre2 : ∀ t : Int, 0 ≤ t → t + 1 < i + 1 →
          v (geti (swapa a i (selectMin v a (i + 1) i)) t) ≤
            v (geti (swapa a i (selectMin v a (i + 1) i)) (t + 1)) := by
        intro t ht0 ht1
        by_cases he : t + 1 = i
        · rw [hgo t ht0 (by omega) (by omega), he, hgi]
          exact hB t (selectMin v a (i + 1) i) ht0 (by omega) (by omega) (by omega)
        · rw [hgo t ht0 (by omega) (by omega), hgo (t + 1) (by omega) (by omega) (by omega)]
          exact hPre t ht0 (by omega)
      have hB2 : ∀ p t : Int, 0 ≤ p → p < i + 1 → i + 1 ≤ t → t < (a.length : Int) →
          v (geti (swapa a i (selectMin v a (i + 1) i)) p) ≤
            v (geti (swapa a i (selectMin v a (i + 1) i)) t) := by
        intro p t hp0 hp1 ht1 ht2
        by_cases hep : p = i
        · rw [hep, hgi]
          by_cases het : t = selectMin v a (i + 1) i
          · rw [het, hgr]
            exact hcov i (le_refl i) (by omega)
          · rw [hgo t (by omega) (by omega) het]
            exact hcov t (by omega) ht2
        · rw [hgo p hp0 hep (by omega)]
          by_cases het : t = selectMin v a (i + 1) i
          · rw [het, hgr]
            exact hB p i hp0 (by omega) (le_refl i) (by omega)
          · rw [hgo t (by omega) (by omega) het]
            exact hB p t hp0 (by omega) (by omega) ht2
      obtain ⟨ihLen, ihPerm, ihSort⟩ :=
        ih (((a.length : Int) - 1 - (i + 1)).toNat) (by omega)
          (swapa a i (selectMin v a (i + 1) i)) (i + 1)
          (by rw [length_swapa]) (by omega)
          hPre2
          (by rw [length_swapa]; exact hB2)
      have hswlen : (swapa a i (selectMin v a (i + 1) i)).length = a.length := length_swapa a _ _
      refine ⟨by rw [ihLen, hswlen], ihPerm.trans (perm_swapa (by omega) (by omega)), ?_⟩
      intro t ht1 ht2
      exact ihSort t ht1 (by rw [hswlen]; omega)
    · rw [selectionOuter, dif_neg hi]
      refine ⟨rfl, List.Perm.refl a, ?_⟩
      intro t ht1 ht2
      by_cases he1 : t + 1 < i
      · exact hPre t ht1 he1
      · by_cases he2 : t < i
        · exact hB t (t + 1) ht1 he2 (by omega) (by omega)
        · exact absurd ht2 (by omega)

theorem selectionSort_perm (v : α → Int) (a : List α) :
    List.Perm (selectionSort v a) a := by
  obtain ⟨_, hPerm, _⟩ :=
    selectionOuter_spec v ((a.length : Int) - 1 - 0).toNat a 0 rfl le_rfl
      (fun t ht1 ht2 => by omega) (fun p t hp1 hp2 ht1 ht2 => by omega)
  exact hPerm

theorem selectionSort_sorted (v : α → Int) (a : List α) :
    (selectionSort v a).Pairwise (fun x y => v x ≤ v y) := by
  obtain ⟨hLen, _, hSort⟩ :=
    selectionOuter_spec v ((a.length : Int) - 1 - 0).toNat a 0 rfl le_rfl
      (fun t ht1 ht2 => by omega) (fun p t hp1 hp2 ht1 ht2 => by omega)
  refine pairwise_of_geti_adj ?_
  intro t ht1 ht2
  rw [selectionSort] at *
  exact hSort t ht1 (by rw [← hLen]; exact ht2)

end sorting_searching

namespace sorting_searching

variable {α : Type} [Inhabited α]

theorem geti_append_left {l1 l2 : List α} {i : Int} (h : i.toNat < l1.length) :
    geti (l1 ++ l2) i = geti l1 i := by
  rw [geti_eq_getElem (by simp; omega), geti_eq_getElem h]
  exact List.getElem_append_left h

theorem set_append_len : ∀ (l1 : List α) (y : α) (l2 : List α) (x : α),
    (l1 ++ y :: l2).set l1.length x = l1 ++ x :: l2
  | [], y, l2, x => rfl
  | z :: l1, y, l2, x => by
    simp only [List.cons_append, List.length_cons, List.set_cons_succ]
    rw [set_append_len l1 y l2 x]

theorem seti_hole {l1 l2 : List α} {i : Int} (h : i.toNat = l1.length) (y x : α) :
    seti (l1 ++ y :: l2) i x = l1 ++ x :: l2 := by
  rw [seti, h, set_append_len]

theorem geti_take {P : List α} {n : Nat} {i : Int} (h1 : i.toNat < n)
    (h2 : i.toNat < P.length) : geti (P.take n) i = geti P i := by
  rw [geti, geti, List.getD_eq_getElem?_getD, List.getD_eq_getElem?_getD,
    List.getElem?_take_of_lt h1]

theorem insertLoop_spec (v : α → Int) : ∀ (m : Nat) (P S : List α) (key hole : α) (j : Int),
    (j + 1).toNat = m → -1 ≤ j → j < (P.length : Int) →
    ∃ mm : Int, -1 ≤ mm ∧ mm ≤ j
      ∧ (0 ≤ mm → v (geti P mm) ≤ v key)
      ∧ (∀ t : Int, mm < t → t ≤ j → v key < v (geti P t))
      ∧ insertLoop v (P.take (j + 1).toNat ++ hole :: (P.drop (j + 1).toNat ++ S)) key j
          = P.take (mm + 1).toNat ++ key :: (P.drop (mm + 1).toNat ++ S) := by
  intro m
  induction m using Nat.strong_induction_on with
  | _ m ih =>
    intro P S key hole j hm hj1 hj2
    have htl : (P.take (j + 1).toNat).length = (j + 1).toNat := by
      rw [List.length_take]
      omega
    rw [insertLoop]
    by_cases hcond : 0 ≤ j ∧ v key < v (geti (P.take (j + 1).toNat ++ hole ::
        (P.drop (j + 1).toNat ++ S)) j)
    · rw [dif_pos hcond]
      have hgj : geti (P.take (j + 1).toNat ++ hole :: (P.drop (j + 1).toNat ++ S)) j =
          geti P j := by
        rw [geti_append_left (by omega)]
        exact geti_take (by omega) (by omega)
      have hkey : v key < v (geti P j) := by
        have := hcond.2
        rwa [hgj] at this
      have h0j : 0 ≤ j := hcond.1
      have hseti : seti (P.take (j + 1).toNat ++ hole :: (P.drop (j + 1).toNat ++ S)) (j + 1)
          (geti (P.take (j + 1).toNat ++ hole :: (P.drop (j + 1).toNat ++ S)) j) =
          P.take (j - 1 + 1).toNat ++ geti P j ::
            (P.drop (j - 1 + 1).toNat ++ S) := by
        rw [hgj, seti_hole (by omega)]
        have e1 : (j + 1).toNat = j.toNat + 1 := by omega
        have e2 : (j - 1 + 1).toNat = j.toNat := by omega
        have e3 : geti P j = P[j.toNat] := geti_eq_getElem (by omega)
        rw [e1, e2, e3]
        conv_rhs => rw [List.drop_eq_getElem_cons (n := j.toNat) (by omega)]
        rw [List.take_succ, List.getElem?_eq_getElem (by omega)]
        simp only [Option.toList_some, List.append_assoc, List.singleton_append,
          List.cons_append, List.nil_append]
      rw [hseti]
      obtain ⟨mm, hm1, hm2, hm3, hm4, hm5⟩ :=
        ih (j - 1 + 1).toNat (by omega) P S key (geti P j) (j - 1) rfl (by omega) (by omega)
      refine ⟨mm, hm1, by omega, hm3, ?_, hm5⟩
      intro t ht1 ht2
      by_cases he : t = j
      · rw [he]
        exact hkey
      · exact hm4 t ht1 (by omega)
    · rw [dif_neg hcond]
      refine ⟨j, hj1, le_refl j, ?_, by omega, seti_hole (by omega) hole key⟩
      intro h0j
      have : ¬(v key < v (geti (P.take (j + 1).toNat ++ hole ::
          (P.drop (j + 1).toNat ++ S)) j)) := fun hh => hcond ⟨h0j, hh⟩
      have hgj : geti (P.take (j + 1).toNat ++ hole :: (P.drop (j + 1).toNat ++ S)) j =
          geti P j := by
        rw [geti_append_left (by omega)]
        exact geti_take (by omega) (by omega)
      rw [hgj] at this
      omega

end sorting_searching

namespace sorting_searching

variable {α : Type} [Inhabited α]

theorem insertionOuter_spec (v : α → Int) :
    ∀ (m : Nat) (a : List α) (i : Int),
    ((a.length : Int) - i).toNat = m → 1 ≤ i →
    (a.take i.toNat).Pairwise (fun x y => v x ≤ v y) →
    ((insertionOuter v a i).length = a.length)
    ∧ List.Perm (insertionOuter v a i) a
    ∧ (insertionOuter v a i).Pairwise (fun x y => v x ≤ v y)
    ∧ (∀ k : Int, (insertionOuter v a i).filter (fun x => v x == k) =
        a.filter (fun x => v x == k)) := by
  intro m
  induction m using Nat.strong_induction_on with
  | _ m ih =>
    intro a i hm h1 hSort
    by_cases hi : i < (a.length : Int)
    · rw [insertionOuter, dif_pos hi]
      have hPlen : (a.take i.toNat).length = i.toNat := by
        rw [List.length_take]
        omega
      have hkeyi : geti a i = a[i.toNat] := geti_eq_getElem (by omega)
      have ha : a = a.take i.toNat ++ geti a i :: a.drop (i.toNat + 1) := by
        conv_lhs => rw [← List.take_append_drop i.toNat a]
        rw [List.drop_eq_getElem_cons (n := i.toNat) (by omega), hkeyi]
      obtain ⟨mm, hm1, hm2, hm3, hm4, heq⟩ :=
        insertLoop_spec v (i - 1 + 1).toNat (a.take i.toNat) (a.drop (i.toNat + 1))
          (geti a i) (geti a i) (i - 1) rfl (by omega) (by rw [hPlen]; omega)
      have e0 : (i - 1 + 1).toNat = i.toNat := by omega
      rw [e0, List.take_of_length_le (le_of_eq hPlen),
        List.drop_eq_nil_of_le (le_of_eq hPlen), List.nil_append, ← ha] at heq
      have hrun : insertLoop v a (geti a i) (i - 1) =
          (a.take i.toNat).take (mm + 1).toNat ++ geti a i ::
            ((a.take i.toNat).drop (mm + 1).toNat ++ a.drop (i.toNat + 1)) := heq
      have hTlen : ((a.take i.toNat).take (mm + 1).toNat).length = (mm + 1).toNat := by
        rw [List.length_take, hPlen]
        omega
      have hDlen : ((a.take i.toNat).drop (mm + 1).toNat).length =
          i.toNat - (mm + 1).toNat := by
        rw [List.length_drop, hPlen]
      have hPsplit : a.take i.toNat =
          (a.take i.toNat).take (mm + 1).toNat ++ (a.take i.toNat).drop (mm + 1).toNat :=
        (List.take_append_drop _ _).symm
      have hSplitP := hSort
      rw [hPsplit, List.pairwise_append] at hSplitP
      obtain ⟨hSortT, hSortD, hCross⟩ := hSplitP
      have hTkey : ∀ x ∈ (a.take i.toNat).take (mm + 1).toNat, v x ≤ v (geti a i) := by
        intro x hx
        obtain ⟨u, hu, he⟩ := List.mem_iff_getElem.mp hx
        have hu2 : u < (mm + 1).toNat := by omega
        have huP : u < (a.take i.toNat).length := by omega
        have heP : (a.take i.toNat)[u] = x := by rw [← he]; simp
        have hmm0 : 0 ≤ mm := by omega
        have hgm : geti (a.take i.toNat) mm = (a.take i.toNat)[mm.toNat] :=
          geti_eq_getElem (by omega)
        by_cases hcase : u = mm.toNat
        · subst hcase
          rw [← heP, ← hgm]
          exact hm3 hmm0
        · have hlt : u < mm.toNat := by omega
          have hpw := List.pairwise_iff_getElem.mp hSort u mm.toNat huP (by omega) hlt
          rw [heP] at hpw
          exact hpw.trans (by rw [← hgm]; exact hm3 hmm0)
      have hKeyD : ∀ y ∈ (a.take i.toNat).drop (mm + 1).toNat,
          v (geti a i) < v y := by
        intro y hy
        obtain ⟨u, hu, he⟩ := List.mem_iff_getElem.mp hy
        have he2 : y = (a.take i.toNat)[(mm + 1).toNat + u] := by
          rw [← he]
          simp
        have hu2 : u < i.toNat - (mm + 1).toNat := by omega
        have hgt : geti (a.take i.toNat) (((mm + 1).toNat + u : Nat) : Int) =
            (a.take i.toNat)[(mm + 1).toNat + u] := geti_eq_getElem (by omega)
        have := hm4 (((mm + 1).toNat + u : Nat) : Int) (by omega) (by omega)
        rw [hgt] at this
        rw [he2]
        exact this
      have hSortP2 : ((a.take i.toNat).take (mm + 1).toNat ++ geti a i ::
          (a.take i.toNat).drop (mm + 1).toNat).Pairwise (fun x y => v x ≤ v y) := by
        rw [List.pairwise_append]
        refine ⟨hSortT, ?_, ?_⟩
        · rw [List.pairwise_cons]
          exact ⟨fun y hy => le_of_lt (hKeyD y hy), hSortD⟩
        · intro x hx y hy
          rcases List.mem_cons.mp hy with he | hyD
          · rw [he]
            exact hTkey x hx
          · exact hCross x hx y hyD
      have ha2perm : List.Perm ((a.take i.toNat).take (mm + 1).toNat ++ geti a i ::
          ((a.take i.toNat).drop (mm + 1).toNat ++ a.drop (i.toNat + 1))) a := by
        conv_rhs => rw [ha, hPsplit]
        rw [List.append_assoc]
        exact List.Perm.append_left _ List.perm_middle.symm
      have ha2len : ((a.take i.toNat).take (mm + 1).toNat ++ geti a i ::
          ((a.take i.toNat).drop (mm + 1).toNat ++ a.drop (i.toNat + 1))).length =
          a.length := ha2perm.length_eq
      have ha2take : ((a.take i.toNat).take (mm + 1).toNat ++ geti a i ::
          ((a.take i.toNat).drop (mm + 1).toNat ++ a.drop (i.toNat + 1))).take
            (i + 1).toNat =
          (a.take i.toNat).take (mm + 1).toNat ++ geti a i ::
            (a.take i.toNat).drop (mm + 1).toNat := by
        rw [← List.cons_append, ← List.append_assoc]
        refine List.take_left' ?_
        simp only [List.length_append, List.length_cons, hTlen, hDlen]
        omega
      have ha2filter : ∀ k : Int,
          ((a.take i.toNat).take (mm + 1).toNat ++ geti a i ::
            ((a.take i.toNat).drop (mm + 1).toNat ++ a.drop (i.toNat + 1))).filter
              (fun x => v x == k) = a.filter (fun x => v x == k) := by
        intro k
        conv_rhs => rw [ha, hPsplit]
        rw [List.append_assoc]
        simp only [List.filter_append, List.filter_cons]
        by_cases hk : (v (geti a i) == k) = true
        · simp only [hk]
          have hDnil : ((a.take i.toNat).drop (mm + 1).toNat).filter
              (fun x => v x == k) = [] := by
            rw [List.filter_eq_nil_iff]
            intro y hy
            have := hKeyD y hy
            simp only [beq_iff_eq] at hk ⊢
            omega
          rw [hDnil]
          simp
        · simp only [hk]
          simp [List.filter_append]
      obtain ⟨ihLen, ihPerm, ihSort, ihFil⟩ :=
        ih (((a.length : Int) - (i + 1)).toNat) (by omega)
          ((a.take i.toNat).take (mm + 1).toNat ++ geti a i ::
            ((a.take i.toNat).drop (mm + 1).toNat ++ a.drop (i.toNat + 1))) (i + 1)
          (by rw [ha2len]) (by omega) (by rw [ha2take]; exact hSortP2)
      rw [hrun]
      refine ⟨ihLen.trans ha2len, ihPerm.trans ha2perm, ihSort, ?_⟩
      intro k
      rw [ihFil k, ha2filter k]
    · rw [insertionOuter, dif_neg hi]
      have he : a.take i.toNat = a := List.take_of_length_le (by omega)
      rw [he] at hSort
      exact ⟨rfl, List.Perm.refl a, hSort, fun k => rfl⟩

theorem insertionSort_perm (v : α → Int) (a : List α) :
    List.Perm (insertionSort v a) a := by
  have hSort1 : (a.take (1 : Int).toNat).Pairwise (fun x y => v x ≤ v y) := by
    cases a with
    | nil => simp
    | cons x t => simp
  obtain ⟨_, hPerm, _, _⟩ :=
    insertionOuter_spec v ((a.length : Int) - 1).toNat a 1 rfl le_rfl hSort1
  exact hPerm

theorem insertionSort_sorted (v : α → Int) (a : List α) :
    (insertionSort v a).Pairwise (fun x y => v x ≤ v y) := by
  have hSort1 : (a.take (1 : Int).toNat).Pairwise (fun x y => v x ≤ v y) := by
    cases a with
    | nil => simp
    | cons x t => simp
  obtain ⟨_, _, hS, _⟩ :=
    insertionOuter_spec v ((a.length : Int) - 1).toNat a 1 rfl le_rfl hSort1
  exact hS

theorem insertionSort_filter (v : α → Int) (a : List α) (k : Int) :
    keyFilter v k (insertionSort v a) = keyFilter v k a := by
  have hSort1 : (a.take (1 : Int).toNat).Pairwise (fun x y => v x ≤ v y) := by
    cases a with
    | nil => simp
    | cons x t => simp
  obtain ⟨_, _, _, hF⟩ :=
    insertionOuter_spec v ((a.length : Int) - 1).toNat a 1 rfl le_rfl hSort1
  exact hF k

end sorting_searching

namespace sorting_searching

variable {α : Type} [Inhabited α]

theorem take_append_len {l1 l2 : List α} {n m : Nat} (h : n = l1.length + m) :
    (l1 ++ l2).take n = l1 ++ l2.take m := by
  subst h
  rw [List.take_append_eq_append_take, List.take_of_length_le (by omega)]
  have e : l1.length + m - l1.length = m := by omega
  rw [e]

theorem drop_append_len {l1 l2 : List α} {n m : Nat} (h : n = l1.length + m) :
    (l1 ++ l2).drop n = l2.drop m := by
  subst h
  rw [List.drop_append_eq_append_drop, List.drop_eq_nil_of_le (by omega)]
  have e : l1.length + m - l1.length = m := by omega
  rw [e, List.nil_append]

theorem mergeF_nil_right (v : α → Int) : ∀ (L : List α), mergeF v L [] = L
  | [] => mergeF.eq_1 v []
  | x :: L2 => mergeF.eq_2 v (x :: L2) (by simp)

theorem mergeF_perm (v : α → Int) : ∀ (L R : List α),
    List.Perm (mergeF v L R) (L ++ R)
  | [], R => by rw [mergeF.eq_1]; simp
  | x :: L2, [] => by rw [mergeF_nil_right]; simp
  | x :: L2, y :: R2 => by
    rw [mergeF.eq_3]
    by_cases hc : v x ≤ v y
    · rw [if_pos hc]
      exact (mergeF_perm v L2 (y :: R2)).cons x
    · rw [if_neg hc]
      refine ((mergeF_perm v (x :: L2) R2).cons y).trans ?_
      exact List.perm_middle.symm
termination_by L R => L.length + R.length
decreasing_by
  all_goals simp <;> omega

theorem mergeF_sorted (v : α → Int) : ∀ (L R : List α),
    L.Pairwise (fun x y => v x ≤ v y) → R.Pairwise (fun x y => v x ≤ v y) →
    (mergeF v L R).Pairwise (fun x y => v x ≤ v y)
  | [], R, _, hR => by rw [mergeF.eq_1]; exact hR
  | x :: L2, [], hL, _ => by rw [mergeF_nil_right]; exact hL
  | x :: L2, y :: R2, hL, hR => by
    rw [mergeF.eq_3]
    rw [List.pairwise_cons] at hL hR
    by_cases hc : v x ≤ v y
    · rw [if_pos hc]
      rw [List.pairwise_cons]
      constructor
      · intro z hz
        have hz2 := (mergeF_perm v L2 (y :: R2)).mem_iff.mp hz
        rw [List.mem_append] at hz2
        rcases hz2 with hzL | hzR
        · exact hL.1 z hzL
        · rcases List.mem_cons.mp hzR with he | hzR2
          · rw [he]
            exact hc
          · exact hc.trans (hR.1 z hzR2)
      · exact mergeF_sorted v L2 (y :: R2) hL.2 (List.pairwise_cons.mpr hR)
    · rw [if_neg hc]
      rw [List.pairwise_cons]
      constructor
      · intro z hz
        have hz2 := (mergeF_perm v (x :: L2) R2).mem_iff.mp hz
        rw [List.mem_append] at hz2
        rcases hz2 with hzL | hzR
        · rcases List.mem_cons.mp hzL with he | hzL2
          · rw [he]
            omega
          · have := hL.1 z hzL2
            omega
        · exact hR.1 z hzR
      · exact mergeF_sorted v (x :: L2) R2 (List.pairwise_cons.mpr hL) hR.2
termination_by L R => L.length + R.length
decreasing_by
  all_goals simp <;> omega

theorem mergeF_filter (v : α → Int) (k : Int) : ∀ (L R : List α),
    L.Pairwise (fun x y => v x ≤ v y) →
    (mergeF v L R).filter (fun x => v x == k) =
      L.filter (fun x => v x == k) ++ R.filter (fun x => v x == k)
  | [], R, _ => by rw [mergeF.eq_1]; simp
  | x :: L2, [], _ => by rw [mergeF_nil_right]; simp
  | x :: L2, y :: R2, hL => by
    rw [mergeF.eq_3]
    rw [List.pairwise_cons] at hL
    by_cases hc : v x ≤ v y
    · rw [if_pos hc]
      rw [List.filter_cons, List.filter_cons]
      by_cases hk : (v x == k) = true
      · simp only [hk]
        rw [mergeF_filter v k L2 (y :: R2) hL.2]
        simp
      · simp only [hk]
        rw [mergeF_filter v k L2 (y :: R2) hL.2]
        simp
    · rw [if_neg hc]
      rw [List.filter_cons]
      by_cases hk : (v y == k) = true
      · simp only [hk]
        rw [mergeF_filter v k (x :: L2) R2 (List.pairwise_cons.mpr hL)]
        have hnil : (x :: L2).filter (fun z => v z == k) = [] := by
          rw [List.filter_eq_nil_iff]
          intro z hz
          simp only [beq_iff_eq] at hk ⊢
          rcases List.mem_cons.mp hz with he | hz2
          · rw [he]
            omega
          · have := hL.1 z hz2
            omega
        simp [List.filter_cons, hk, hnil]
      · simp only [hk]
        rw [mergeF_filter v k (x :: L2) R2 (List.pairwise_cons.mpr hL)]
        simp only [List.filter_cons, hk]
        simp
termination_by L R => L.length + R.length
decreasing_by
  all_goals simp <;> omega

theorem copySeg_eq : ∀ (n : Nat) (a : List α) (start : Int), 0 ≤ start →
    start.toNat + n ≤ a.length →
    copySeg a start n = (a.drop start.toNat).take n
  | 0, a, start, h0, hle => by rw [copySeg]; simp
  | n + 1, a, start, h0, hle => by
    rw [copySeg, copySeg_eq n a (start + 1) (by omega) (by omega)]
    have e1 : (start + 1).toNat = start.toNat + 1 := by omega
    rw [e1, geti_eq_getElem (by omega)]
    conv_rhs => rw [List.drop_eq_getElem_cons (n := start.toNat) (by omega)]
    rw [List.take_succ_cons]

end sorting_searching

namespace sorting_searching

variable {α : Type} [Inhabited α]

theorem copyRest_spec : ∀ (m : Nat) (src a : List α) (i k : Int),
    ((src.length : Int) - i).toNat = m → 0 ≤ i → i ≤ (src.length : Int) → 0 ≤ k →
    k.toNat + (src.length - i.toNat) ≤ a.length →
    copyRest src a i k =
      (a.take k.toNat ++ src.drop i.toNat ++ a.drop (k.toNat + (src.length - i.toNat)),
       (src.length : Int), k + ((src.length : Int) - i)) := by
  intro m
  induction m using Nat.strong_induction_on with
  | _ m ih =>
    intro src a i k hm h0i hilen h0k hblen
    by_cases hi : i < (src.length : Int)
    · rw [copyRest, dif_pos hi]
      have hkb : k.toNat < a.length := by omega
      have hset : seti a k (geti src i) =
          a.take k.toNat ++ geti src i :: a.drop (k.toNat + 1) := by
        rw [seti]
        exact List.set_eq_take_cons_drop _ hkb
      have htklen : (a.take k.toNat).length = k.toNat := by
        rw [List.length_take]
        omega
      rw [hset, ih ((src.length : Int) - (i + 1)).toNat (by omega) src _ (i + 1) (k + 1)
        rfl (by omega) (by omega) (by omega)
        (by
          simp only [List.length_append, List.length_cons, List.length_drop, htklen]
          omega)]
      have h3 : k + 1 + ((src.length : Int) - (i + 1)) = k + ((src.length : Int) - i) := by
        ring
      rw [h3]
      simp only [Prod.mk.injEq, and_true, and_self, eq_self_iff_true]
      have e1 : (k + 1).toNat = (a.take k.toNat).length + 1 := by omega
      rw [take_append_len e1]
      have e2 : (k + 1).toNat + (src.length - (i + 1).toNat) =
          (a.take k.toNat).length + ((src.length - (i + 1).toNat) + 1) := by omega
      rw [drop_append_len e2]
      have e3 : src.drop i.toNat = src[i.toNat] :: src.drop (i.toNat + 1) :=
        List.drop_eq_getElem_cons (by omega)
      have e4 : geti src i = src[i.toNat] := geti_eq_getElem (by omega)
      have e5 : (i + 1).toNat = i.toNat + 1 := by omega
      rw [e3, e4, e5]
      simp only [List.take_succ_cons, List.take_zero, List.drop_succ_cons,
        List.drop_drop, List.append_assoc, List.cons_append, List.nil_append]
      have e6 : k.toNat + 1 + (src.length - (i.toNat + 1)) =
          k.toNat + (src.length - i.toNat) := by omega
      rw [e6]
    · rw [copyRest, dif_neg hi]
      have e1 : src.drop i.toNat = [] := List.drop_eq_nil_of_le (by omega)
      have e2 : k.toNat + (src.length - i.toNat) = k.toNat := by omega
      rw [e1, e2, List.append_nil, List.take_append_drop]
      rw [(show (src.length : Int) = i by omega)]
      norm_num

end sorting_searching

namespace sorting_searching

variable {α : Type} [Inhabited α]

theorem mergeF_exhaust (v : α → Int) (L R : List α) (h : L = [] ∨ R = []) :
    mergeF v L R = L ++ R := by
  rcases h with h | h
  · rw [h, mergeF.eq_1, List.nil_append]
  · rw [h, mergeF_nil_right, List.append_nil]

theorem mergeLoop_spec : ∀ (m : Nat) (v : α → Int) (L R a : List α) (i j k : Int),
    ((L.length : Int) - i + ((R.length : Int) - j)).toNat = m →
    0 ≤ i → i ≤ (L.length : Int) → 0 ≤ j → j ≤ (R.length : Int) → 0 ≤ k →
    k.toNat + ((L.length - i.toNat) + (R.length - j.toNat)) ≤ a.length →
    ∃ E i2 j2,
      mergeLoop v L R a i j k =
        (a.take k.toNat ++ E ++ a.drop (k.toNat + E.length), i2, j2, k + (E.length : Int)) ∧
      i ≤ i2 ∧ i2 ≤ (L.length : Int) ∧ j ≤ j2 ∧ j2 ≤ (R.length : Int) ∧
      (i2 = (L.length : Int) ∨ j2 = (R.length : Int)) ∧
      (E.length : Int) = (i2 - i) + (j2 - j) ∧
      mergeF v (L.drop i.toNat) (R.drop j.toNat) =
        E ++ mergeF v (L.drop i2.toNat) (R.drop j2.toNat) := by
  intro m
  induction m using Nat.strong_induction_on with
  | _ m ih =>
    intro v L R a i j k hm h0i hiL h0j hjR h0k hblen
    by_cases h : i < (L.length : Int) ∧ j < (R.length : Int)
    · have hkb : k.toNat < a.length := by omega
      have hP : (a.take k.toNat).length = k.toNat := by
        rw [List.length_take]
        omega
      have hiN : i.toNat < L.length := by omega
      have hjN : j.toNat < R.length := by omega
      have hLd : L.drop i.toNat = L[i.toNat] :: L.drop (i.toNat + 1) :=
        List.drop_eq_getElem_cons hiN
      have hRd : R.drop j.toNat = R[j.toNat] :: R.drop (j.toNat + 1) :=
        List.drop_eq_getElem_cons hjN
      have hgl : geti L i = L[i.toNat] := geti_eq_getElem hiN
      have hgr : geti R j = R[j.toNat] := geti_eq_getElem hjN
      rw [mergeLoop, dif_pos h]
      by_cases hc : v (geti L i) ≤ v (geti R j)
      · rw [if_pos hc]
        have hset : seti a k (geti L i) =
            a.take k.toNat ++ geti L i :: a.drop (k.toNat + 1) := by
          rw [seti]
          exact List.set_eq_take_cons_drop _ hkb
        obtain ⟨E2, i2, j2, heq, hii2, hi2L, hjj2, hj2R, hex, hElen, hmf⟩ :=
          ih ((L.length : Int) - (i + 1) + ((R.length : Int) - j)).toNat (by omega)
            v L R (seti a k (geti L i)) (i + 1) j (k + 1) rfl
            (by omega) (by omega) h0j hjR (by omega)
            (by rw [length_seti]; omega)
        refine ⟨geti L i :: E2, i2, j2, ?_, by omega, hi2L, hjj2, hj2R, hex,
          ?_, ?_⟩
        · rw [heq, hset]
          have e1 : (k + 1).toNat = (a.take k.toNat).length + 1 := by omega
          rw [take_append_len e1]
          have e2 : (k + 1).toNat + E2.length =
              (a.take k.toNat).length + (E2.length + 1) := by omega
          rw [drop_append_len e2]
          simp only [List.take_succ_cons, List.take_zero, List.drop_succ_cons,
            List.drop_drop, List.append_assoc, List.cons_append, List.nil_append,
            List.length_cons, Prod.mk.injEq]
          refine ⟨?_, trivial, trivial, ?_⟩
          · have e3 : k.toNat + 1 + E2.length = k.toNat + (E2.length + 1) := by omega
            rw [e3]
          · push_cast
            omega
        · simp only [List.length_cons]
          push_cast
          omega
        · rw [hLd, hRd, mergeF.eq_3, if_pos (by rw [hgl, hgr] at hc; exact hc)]
          rw [← hRd, ← hgl]
          have e4 : (i + 1).toNat = i.toNat + 1 := by omega
          rw [e4] at hmf
          rw [hmf, List.cons_append]
      · rw [if_neg hc]
        have hset : seti a k (geti R j) =
            a.take k.toNat ++ geti R j :: a.drop (k.toNat + 1) := by
          rw [seti]
          exact List.set_eq_take_cons_drop _ hkb
        obtain ⟨E2, i2, j2, heq, hii2, hi2L, hjj2, hj2R, hex, hElen, hmf⟩ :=
          ih ((L.length : Int) - i + ((R.length : Int) - (j + 1))).toNat (by omega)
            v L R (seti a k (geti R j)) i (j + 1) (k + 1) rfl
            h0i hiL (by omega) (by omega) (by omega)
            (by rw [length_seti]; omega)
        refine ⟨geti R j :: E2, i2, j2, ?_, hii2, hi2L, by omega, hj2R, hex,
          ?_, ?_⟩
        · rw [heq, hset]
          have e1 : (k + 1).toNat = (a.take k.toNat).length + 1 := by omega
          rw [take_append_len e1]
          have e2 : (k + 1).toNat + E2.length =
              (a.take k.toNat).length + (E2.length + 1) := by omega
          rw [drop_append_len e2]
          simp only [List.take_succ_cons, List.take_zero, List.drop_succ_cons,
            List.drop_drop, List.append_assoc, List.cons_append, List.nil_append,
            List.length_cons, Prod.mk.injEq]
          refine ⟨?_, trivial, trivial, ?_⟩
          · have e3 : k.toNat + 1 + E2.length = k.toNat + (E2.length + 1) := by omega
            rw [e3]
          · push_cast
            omega
        · simp only [List.length_cons]
          push_cast
          omega
        · rw [hLd, hRd, mergeF.eq_3, if_neg (by rw [hgl, hgr] at hc; exact hc)]
          rw [← hLd, ← hgr]
          have e4 : (j + 1).toNat = j.toNat + 1 := by omega
          rw [e4] at hmf
          rw [hmf, List.cons_append]
    · rw [mergeLoop, dif_neg h]
      refine ⟨[], i, j, ?_, le_refl i, hiL, le_refl j, hjR, by omega, by simp, by simp⟩
      simp

end sorting_searching

namespace sorting_searching

variable {α : Type} [Inhabited α]

theorem length_slice (a : List α) (l r : Int) (h0 : 0 ≤ l)
    (hr : r < (a.length : Int)) :
    (slice a l r).length = (r - l + 1).toNat := by
  rw [slice, List.length_take, List.length_drop]
  omega

theorem mergeSeg_spec (v : α → Int) (a : List α) (left mid right : Int)
    (h0 : 0 ≤ left) (hlm : left ≤ mid) (hmr : mid < right)
    (hra : right < (a.length : Int)) :
    mergeSeg v a left mid right =
      a.take left.toNat ++
        mergeF v (slice a left mid) (slice a (mid + 1) right) ++
        a.drop (right.toNat + 1) := by
  have hL : copySeg a left (mid - left + 1).toNat = slice a left mid := by
    rw [copySeg_eq (mid - left + 1).toNat a left h0 (by omega), slice]
  have hR : copySeg a (mid + 1) (right - mid).toNat = slice a (mid + 1) right := by
    rw [copySeg_eq (right - mid).toNat a (mid + 1) (by omega) (by omega), slice]
    have e : right - (mid + 1) + 1 = right - mid := by ring
    rw [e]
  have hLlen : (slice a left mid).length = (mid - left + 1).toNat :=
    length_slice a left mid h0 (by omega)
  have hRlen : (slice a (mid + 1) right).length = (right - mid).toNat := by
    rw [length_slice a (mid + 1) right (by omega) hra]
    omega
  obtain ⟨E, i2, j2, hml, h0i2, hi2L, h0j2, hj2R, hex, hElen, hmf⟩ :=
    mergeLoop_spec (((slice a left mid).length : Int) - 0 +
        (((slice a (mid + 1) right).length : Int) - 0)).toNat
      v (slice a left mid) (slice a (mid + 1) right) a 0 0 left rfl
      (le_refl 0) (by omega) (le_refl 0) (by omega) h0
      (by rw [hLlen, hRlen]; omega)
  simp only [Int.toNat_zero, List.drop_zero] at hmf
  have hWlen : (a.take left.toNat ++ E ++ a.drop (left.toNat + E.length)).length
      = a.length := by
    simp only [List.length_append, List.length_take, List.length_drop]
    omega
  obtain hc1 := copyRest_spec (((slice a left mid).length : Int) - i2).toNat
    (slice a left mid) (a.take left.toNat ++ E ++ a.drop (left.toNat + E.length))
    i2 (left + (E.length : Int)) rfl h0i2 hi2L (by omega) (by rw [hWlen]; omega)
  rw [List.take_left'
    (show (a.take left.toNat ++ E).length = (left + (E.length : Int)).toNat by
      simp only [List.length_append, List.length_take]
      omega)] at hc1
  rw [drop_append_len
    (show (left + (E.length : Int)).toNat +
        ((slice a left mid).length - i2.toNat) =
        (a.take left.toNat ++ E).length +
        ((slice a left mid).length - i2.toNat) from by
      simp only [List.length_append, List.length_take]
      omega)] at hc1
  rw [List.drop_drop] at hc1
  have hW2len : (a.take left.toNat ++ E ++
      (slice a left mid).drop i2.toNat ++
        a.drop (left.toNat + E.length +
          ((slice a left mid).length - i2.toNat))).length = a.length := by
    simp only [List.length_append, List.length_take, List.length_drop]
    omega
  obtain hc2 := copyRest_spec (((slice a (mid + 1) right).length : Int) - j2).toNat
    (slice a (mid + 1) right)
    (a.take left.toNat ++ E ++
      (slice a left mid).drop i2.toNat ++
        a.drop (left.toNat + E.length + ((slice a left mid).length - i2.toNat)))
    j2 (left + (E.length : Int) + (((slice a left mid).length : Int) - i2))
    rfl h0j2 hj2R (by omega) (by rw [hW2len]; omega)
  rw [List.take_left'
    (show (a.take left.toNat ++ E ++ (slice a left mid).drop i2.toNat).length =
        (left + (E.length : Int) +
          (((slice a left mid).length : Int) - i2)).toNat by
      simp only [List.length_append, List.length_take, List.length_drop]
      omega)] at hc2
  rw [drop_append_len
    (show (left + (E.length : Int) +
        (((slice a left mid).length : Int) - i2)).toNat +
        ((slice a (mid + 1) right).length - j2.toNat) =
        (a.take left.toNat ++ E ++ (slice a left mid).drop i2.toNat).length +
        ((slice a (mid + 1) right).length - j2.toNat) from by
      simp only [List.length_append, List.length_take, List.length_drop]
      omega)] at hc2
  rw [List.drop_drop] at hc2
  rw [(show left.toNat + E.length + ((slice a left mid).length - i2.toNat) +
      ((slice a (mid + 1) right).length - j2.toNat) = right.toNat + 1 by
    omega)] at hc2
  have hdropnil : (slice a left mid).drop i2.toNat = [] ∨
      (slice a (mid + 1) right).drop j2.toNat = [] := by
    rcases hex with hx | hx
    · exact Or.inl (List.drop_eq_nil_of_le (by omega))
    · exact Or.inr (List.drop_eq_nil_of_le (by omega))
  simp only [mergeSeg]
  rw [hL, hR, hml]
  dsimp only
  rw [hc1]
  dsimp only
  rw [hc2]
  dsimp only
  rw [hmf, mergeF_exhaust v _ _ hdropnil]
  simp only [List.append_assoc]

end sorting_searching

namespace sorting_searching

variable {α : Type} [Inhabited α]

theorem slice_split (a : List α) (l m r : Int) (h0 : 0 ≤ l) (hlm : l - 1 ≤ m)
    (hmr : m ≤ r) :
    slice a l r = slice a l m ++ slice a (m + 1) r := by
  rw [slice, slice, slice]
  rw [(show (r - l + 1).toNat = (m - l + 1).toNat + (r - (m + 1) + 1).toNat by
    omega)]
  rw [List.take_add, List.drop_drop]
  rw [(show l.toNat + (m - l + 1).toNat = (m + 1).toNat by omega)]

theorem slice_single (a : List α) (l : Int) (h0 : 0 ≤ l)
    (hl : l < (a.length : Int)) :
    a.take l.toNat ++ slice a l l ++ a.drop (l.toNat + 1) = a := by
  rw [slice]
  have e : (l - l + 1).toNat = 1 := by omega
  rw [e]
  rw [List.drop_eq_getElem_cons (show l.toNat < a.length by omega)]
  conv_rhs => rw [← List.take_append_drop l.toNat a,
    List.drop_eq_getElem_cons (show l.toNat < a.length by omega)]
  simp only [List.take_succ_cons, List.take_zero, List.append_assoc,
    List.cons_append, List.nil_append]

theorem seg_decomp2 (P N1 N2 D : List α) (l m r : Int) (hP : P.length = l.toNat)
    (hN1 : N1.length = (m + 1 - l).toNat) (hN2 : N2.length = (r - m).toNat)
    (h0 : 0 ≤ l) (hlm : l ≤ m) (hmr : m < r) :
    (P ++ (N1 ++ N2) ++ D).take l.toNat = P ∧
    (P ++ (N1 ++ N2) ++ D).drop (r.toNat + 1) = D ∧
    slice (P ++ (N1 ++ N2) ++ D) l m = N1 ∧
    slice (P ++ (N1 ++ N2) ++ D) (m + 1) r = N2 := by
  have hPN : (P ++ (N1 ++ N2)).length = r.toNat + 1 := by
    simp only [List.length_append]
    omega
  refine ⟨?_, ?_, ?_, ?_⟩
  · rw [List.take_append_of_le_length (by omega), List.take_left' hP]
  · rw [drop_append_len (show r.toNat + 1 = (P ++ (N1 ++ N2)).length + 0 from by
      omega), List.drop_zero]
  · rw [slice, List.drop_append_of_le_length (by omega),
      drop_append_len (show l.toNat = P.length + 0 from by omega),
      List.drop_zero]
    rw [List.take_append_of_le_length (by simp only [List.length_append]; omega)]
    exact List.take_left' (by omega)
  · rw [slice, List.drop_append_of_le_length (by omega),
      drop_append_len (show (m + 1).toNat = P.length + (m.toNat + 1 - l.toNat)
        from by omega),
      drop_append_len (show m.toNat + 1 - l.toNat = N1.length + 0 from by omega),
      List.drop_zero]
    rw [List.take_append_of_le_length (by omega)]
    exact List.take_of_length_le (by omega)

theorem mergeSortSeg_spec : ∀ (m : Nat) (v : α → Int) (a : List α)
    (left right : Int),
    (right - left).toNat = m → 0 ≤ left → left ≤ right →
    right < (a.length : Int) →
    ∃ M : List α,
      mergeSortSeg v a left right =
        a.take left.toNat ++ M ++ a.drop (right.toNat + 1) ∧
      M.length = (right + 1 - left).toNat ∧
      List.Perm M (slice a left right) ∧
      SortedKey v M ∧
      ∀ k : Int, keyFilter v k M = keyFilter v k (slice a left right) := by
  intro m
  induction m using Nat.strong_induction_on with
  | _ m ih =>
    intro v a left right hm h0l hlr hra
    by_cases h : left < right
    · have hd0 : 0 ≤ (right - left) / 2 := Int.ediv_nonneg (by omega) (by omega)
      have hd1 : (right - left) / 2 < right - left :=
        Int.ediv_lt_of_lt_mul (by omega) (by omega)
      set mid := left + (right - left) / 2 with hmid
      have hmb1 : left ≤ mid := by omega
      have hmb2 : mid < right := by omega
      obtain ⟨M1, ha1, hM1len, hM1perm, hM1sort, hM1filt⟩ :=
        ih (mid - left).toNat (by omega) v a left mid rfl h0l (by omega)
          (by omega)
      have ha1len : (a.take left.toNat ++ M1 ++ a.drop (mid.toNat + 1)).length
          = a.length := by
        simp only [List.length_append, List.length_take, List.length_drop]
        omega
      obtain ⟨M2, ha2, hM2len, hM2perm, hM2sort, hM2filt⟩ :=
        ih (right - (mid + 1)).toNat (by omega) v
          (a.take left.toNat ++ M1 ++ a.drop (mid.toNat + 1)) (mid + 1) right
          rfl (by omega) (by omega) (by rw [ha1len]; exact hra)
      have e1 : (a.take left.toNat ++ M1 ++ a.drop (mid.toNat + 1)).take
          (mid + 1).toNat = a.take left.toNat ++ M1 :=
        List.take_left' (by
          simp only [List.length_append, List.length_take]
          omega)
      have e2 : (a.take left.toNat ++ M1 ++ a.drop (mid.toNat + 1)).drop
          (right.toNat + 1) = a.drop (right.toNat + 1) := by
        rw [drop_append_len (show right.toNat + 1 =
            (a.take left.toNat ++ M1).length + (right.toNat - mid.toNat) from by
          simp only [List.length_append, List.length_take]
          omega)]
        rw [List.drop_drop]
        congr 1
        omega
      have e3 : slice (a.take left.toNat ++ M1 ++ a.drop (mid.toNat + 1))
          (mid + 1) right = slice a (mid + 1) right := by
        rw [slice, slice]
        rw [(show (mid + 1).toNat = mid.toNat + 1 by omega)]
        rw [drop_append_len (show mid.toNat + 1 =
            (a.take left.toNat ++ M1).length + 0 from by
          simp only [List.length_append, List.length_take]
          omega)]
        rw [List.drop_zero]
      rw [e1, e2] at ha2
      simp only [e3] at hM2perm hM2filt
      have ha2len : (a.take left.toNat ++ (M1 ++ M2) ++
          a.drop (right.toNat + 1)).length = a.length := by
        simp only [List.length_append, List.length_take, List.length_drop]
        omega
      obtain ⟨hts, hds, hss1, hss2⟩ := seg_decomp2 (a.take left.toNat) M1 M2
        (a.drop (right.toNat + 1)) left mid right
        (by rw [List.length_take]; omega) hM1len (by omega) h0l hmb1 hmb2
      have hfin : mergeSortSeg v a left right =
          a.take left.toNat ++ mergeF v M1 M2 ++ a.drop (right.toNat + 1) := by
        rw [mergeSortSeg, dif_pos h]
        dsimp only
        rw [← hmid]
        rw [ha1, ha2]
        rw [List.append_assoc (a.take left.toNat) M1 M2]
        rw [mergeSeg_spec v _ left mid right h0l hmb1 hmb2
          (by rw [ha2len]; exact hra)]
        rw [hts, hds, hss1, hss2]
      have hsplit : slice a left right =
          slice a left mid ++ slice a (mid + 1) right :=
        slice_split a left mid right h0l (by omega) (by omega)
      refine ⟨mergeF v M1 M2, hfin, ?_, ?_,
        mergeF_sorted v M1 M2 hM1sort hM2sort, ?_⟩
      · have hpl := (mergeF_perm v M1 M2).length_eq
        simp only [List.length_append] at hpl
        omega
      · rw [hsplit]
        exact (mergeF_perm v M1 M2).trans (hM1perm.append hM2perm)
      · intro k
        rw [keyFilter, mergeF_filter v k M1 M2 hM1sort]
        rw [hsplit, keyFilter, List.filter_append]
        have f1 := hM1filt k
        have f2 := hM2filt k
        simp only [keyFilter] at f1 f2
        rw [f1, f2]
    · have hlr2 : left = right := by omega
      refine ⟨slice a left right, ?_, ?_, List.Perm.refl _, ?_, fun k => rfl⟩
      · rw [mergeSortSeg, dif_neg h]
        rw [← hlr2]
        exact (slice_single a left h0l (by omega)).symm
      · rw [length_slice a left right h0l hra]
        omega
      · have h1 : (slice a left right).length = 1 := by
          rw [length_slice a left right h0l hra]
          omega
        obtain ⟨x, hx⟩ := List.length_eq_one.mp h1
        rw [SortedKey, hx]
        simp

end sorting_searching

namespace sorting_searching

variable {α : Type} [Inhabited α]

theorem pairwise_short {R : α → α → Prop} :
    ∀ (l : List α), l.length ≤ 1 → l.Pairwise R
  | [], _ => List.Pairwise.nil
  | [x], _ => List.pairwise_singleton R x
  | x :: y :: t, h => by simp at h

theorem mergeSort_spec (v : α → Int) (a : List α) :
    List.Perm (mergeSort v a) a ∧ SortedKey v (mergeSort v a) ∧
    ∀ k : Int, keyFilter v k (mergeSort v a) = keyFilter v k a := by
  rw [mergeSort]
  by_cases h : a.length ≤ 1
  · rw [if_pos h]
    exact ⟨List.Perm.refl a, pairwise_short a h, fun k => rfl⟩
  · rw [if_neg h]
    obtain ⟨M, hms, hlen, hperm, hsort, hfilt⟩ :=
      mergeSortSeg_spec (((a.length : Int) - 1) - 0).toNat v a 0
        ((a.length : Int) - 1) rfl (le_refl 0) (by omega) (by omega)
    have hslice : slice a 0 ((a.length : Int) - 1) = a := by
      rw [slice]
      rw [(show ((a.length : Int) - 1 - 0 + 1).toNat = a.length by omega)]
      rw [Int.toNat_zero, List.drop_zero, List.take_length]
    have hms2 : mergeSortSeg v a 0 ((a.length : Int) - 1) = M := by
      rw [hms]
      rw [(show (((a.length : Int) - 1).toNat + 1) = a.length by omega)]
      rw [Int.toNat_zero, List.take_zero, List.drop_length, List.nil_append,
        List.append_nil]
    rw [hms2]
    rw [hslice] at hperm hfilt
    exact ⟨hperm, hsort, hfilt⟩

end sorting_searching

namespace sorting_searching

variable {α : Type} [Inhabited α]

theorem take_seti_of_le (x : α) (a : List α) {i : Int} {n : Nat}
    (h : n ≤ i.toNat) : (seti a i x).take n = a.take n := by
  rw [seti]
  refine List.ext_getElem? fun k => ?_
  rw [List.getElem?_take, List.getElem?_take]
  split
  · next h2 => rw [List.getElem?_set_ne (by omega)]
  · rfl

theorem drop_seti_of_lt (x : α) (a : List α) {i : Int} {n : Nat}
    (h : i.toNat < n) : (seti a i x).drop n = a.drop n := by
  rw [seti]
  exact List.drop_set_of_lt x a h

theorem take_swapa_of_le (a : List α) (i j : Int) (n : Nat) (hi : n ≤ i.toNat)
    (hj : n ≤ j.toNat) : (swapa a i j).take n = a.take n := by
  simp only [swapa]
  rw [take_seti_of_le _ _ hj, take_seti_of_le _ _ hi]

theorem drop_swapa_of_lt (a : List α) (i j : Int) (n : Nat) (hi : i.toNat < n)
    (hj : j.toNat < n) : (swapa a i j).drop n = a.drop n := by
  simp only [swapa]
  rw [drop_seti_of_lt _ _ hj, drop_seti_of_lt _ _ hi]

theorem take_eq_mono {x y : List α} {n m : Nat} (h : x.take n = y.take n)
    (hm : m ≤ n) : x.take m = y.take m := by
  have h2 := congrArg (List.take m) h
  rw [List.take_take, List.take_take, Nat.min_eq_left hm] at h2
  exact h2

theorem drop_eq_of_drop_eq {x y : List α} {n : Nat} (h : x.drop n = y.drop n)
    (m : Nat) (hm : n ≤ m) : x.drop m = y.drop m := by
  have h2 := congrArg (List.drop (m - n)) h
  rw [List.drop_drop, List.drop_drop] at h2
  rw [(show m = n + (m - n) by omega)]
  exact h2

theorem geti_of_take_eq {x y : List α} {n : Nat} (h : x.take n = y.take n)
    {t : Int} (htx : t.toNat < x.length) (hty : t.toNat < y.length)
    (ht : t.toNat < n) : geti x t = geti y t := by
  rw [← geti_take ht htx, h, geti_take ht hty]

theorem geti_of_drop_eq {x y : List α} {n : Nat} (h : x.drop n = y.drop n)
    {t : Int} (ht : n ≤ t.toNat) : geti x t = geti y t := by
  simp only [geti]
  rw [List.getD_eq_getElem?_getD, List.getD_eq_getElem?_getD]
  rw [(show t.toNat = n + (t.toNat - n) by omega)]
  rw [← List.getElem?_drop, ← List.getElem?_drop, h]

theorem slice_decomp (a : List α) (l r : Int) (h0 : 0 ≤ l) (hlr : l ≤ r + 1) :
    a.take l.toNat ++ slice a l r ++ a.drop ((r + 1).toNat) = a := by
  rw [slice, ← List.take_add,
    (show l.toNat + (r - l + 1).toNat = (r + 1).toNat by omega),
    List.take_append_drop]

theorem slice_cons (a : List α) (l r : Int) (h0 : 0 ≤ l) (hlr : l ≤ r)
    (hl : l < (a.length : Int)) :
    slice a l r = geti a l :: slice a (l + 1) r := by
  rw [slice, slice, List.drop_eq_getElem_cons (show l.toNat < a.length by omega)]
  rw [(show (r - l + 1).toNat = (r - (l + 1) + 1).toNat + 1 by omega)]
  rw [List.take_succ_cons]
  rw [(show (l + 1).toNat = l.toNat + 1 by omega)]
  rw [geti_eq_getElem (show l.toNat < a.length by omega)]

theorem mem_slice {a : List α} {l r : Int} {x : α} (h0 : 0 ≤ l)
    (hx : x ∈ slice a l r) :
    ∃ t : Int, l ≤ t ∧ t ≤ r ∧ geti a t = x := by
  rw [slice] at hx
  obtain ⟨n, hn, he⟩ := List.mem_iff_getElem.mp hx
  rw [List.length_take, List.length_drop] at hn
  simp only [List.getElem_take, List.getElem_drop] at he
  refine ⟨l + (n : Int), by omega, by omega, ?_⟩
  rw [geti_eq_getElem (by omega)]
  convert he using 2
  omega

end sorting_searching

namespace sorting_searching

variable {α : Type} [Inhabited α]

theorem partitionLoop_spec : ∀ (m : Nat) (v : α → Int) (a : List α) (pivot : α)
    (high i j : Int),
    (high - j).toNat = m → 0 ≤ i + 1 → i + 1 ≤ j → j ≤ high →
    high ≤ (a.length : Int) →
    (∀ t : Int, i < t → t < j → v pivot < v (geti a t)) →
    (partitionLoop v a pivot high i j).1.length = a.length ∧
    List.Perm (partitionLoop v a pivot high i j).1 a ∧
    (partitionLoop v a pivot high i j).1.take (i + 1).toNat =
      a.take (i + 1).toNat ∧
    (partitionLoop v a pivot high i j).1.drop high.toNat =
      a.drop high.toNat ∧
    i ≤ (partitionLoop v a pivot high i j).2 ∧
    (partitionLoop v a pivot high i j).2 ≤ i + (high - j) ∧
    (∀ t : Int, i < t → t ≤ (partitionLoop v a pivot high i j).2 →
      v (geti (partitionLoop v a pivot high i j).1 t) ≤ v pivot) ∧
    (∀ t : Int, (partitionLoop v a pivot high i j).2 < t → t < high →
      v pivot < v (geti (partitionLoop v a pivot high i j).1 t)) := by
  intro m
  induction m using Nat.strong_induction_on with
  | _ m ih =>
    intro v a pivot high i j hm h0i hij hjh hha hgt
    by_cases h : j < high
    · rw [partitionLoop, dif_pos h]
      by_cases hc : v (geti a j) ≤ v pivot
      · rw [if_pos hc]
        have hjlen : j.toNat < a.length := by omega
        have hilen : (i + 1).toNat < a.length := by omega
        have hgt2 : ∀ t : Int, i + 1 < t → t < j + 1 →
            v pivot < v (geti (swapa a (i + 1) j) t) := by
          intro t ht1 ht2
          by_cases htj : t < j
          · rw [geti_swapa_other (by omega) (by omega)]
            exact hgt t (by omega) htj
          · have htj2 : t = j := by omega
            rw [htj2, geti_swapa_right (by omega)]
            exact hgt (i + 1) (by omega) (by omega)
        obtain ⟨q1, q2, q3, q4, q5, q6, q7, q8⟩ :=
          ih (high - (j + 1)).toNat (by omega) v (swapa a (i + 1) j) pivot high
            (i + 1) (j + 1) rfl (by omega) (by omega) (by omega)
            (by rw [length_swapa]; exact hha) hgt2
        have hval : geti (swapa a (i + 1) j) (i + 1) = geti a j := by
          by_cases he : i + 1 = j
          · rw [he]
            exact geti_swapa_right (by omega)
          · exact geti_swapa_left (by omega) (by omega)
        refine ⟨?_, ?_, ?_, ?_, by omega, by omega, ?_, ?_⟩
        · rw [q1, length_swapa]
        · exact q2.trans (perm_swapa hilen hjlen)
        · have hmono := take_eq_mono q3
            (show (i + 1).toNat ≤ (i + 1 + 1).toNat by omega)
          rw [hmono, take_swapa_of_le a (i + 1) j (i + 1).toNat (le_refl _)
            (by omega)]
        · rw [q4, drop_swapa_of_lt a (i + 1) j high.toNat (by omega) (by omega)]
        · intro t ht1 ht2
          by_cases hti : i + 1 < t
          · exact q7 t hti ht2
          · have hti2 : t = i + 1 := by omega
            rw [hti2]
            have hg : geti (partitionLoop v (swapa a (i + 1) j) pivot high
                (i + 1) (j + 1)).1 (i + 1) = geti (swapa a (i + 1) j) (i + 1) := by
              refine geti_of_take_eq q3 ?_ ?_ (by omega)
              · rw [q1, length_swapa]
                omega
              · rw [length_swapa]
                omega
            rw [hg, hval]
            exact hc
        · exact q8
      · rw [if_neg hc]
        have hgt2 : ∀ t : Int, i < t → t < j + 1 → v pivot < v (geti a t) := by
          intro t ht1 ht2
          by_cases htj : t < j
          · exact hgt t ht1 htj
          · have htj2 : t = j := by omega
            rw [htj2]
            omega
        obtain ⟨q1, q2, q3, q4, q5, q6, q7, q8⟩ :=
          ih (high - (j + 1)).toNat (by omega) v a pivot high i (j + 1) rfl
            h0i (by omega) (by omega) hha hgt2
        exact ⟨q1, q2, q3, q4, q5, by omega, q7, q8⟩
    · rw [partitionLoop, dif_neg h]
      refine ⟨rfl, List.Perm.refl a, rfl, rfl, le_refl i, by omega, ?_, ?_⟩
      · intro t ht1 ht2
        omega
      · intro t ht1 ht2
        exact hgt t (by omega) (by omega)

end sorting_searching

namespace sorting_searching

variable {α : Type} [Inhabited α]

theorem part_decomp (P Y1 Y2 D : List α) (x : α) (l p r : Int)
    (hP : P.length = l.toNat) (hY1 : Y1.length = (p - l).toNat)
    (hY2 : Y2.length = (r - p).toNat)
    (h0 : 0 ≤ l) (hlp : l ≤ p) (hpr : p ≤ r) :
    (P ++ Y1 ++ x :: Y2 ++ D).take l.toNat = P ∧
    (P ++ Y1 ++ x :: Y2 ++ D).drop p.toNat = x :: Y2 ++ D ∧
    slice (P ++ Y1 ++ x :: Y2 ++ D) l (p - 1) = Y1 ∧
    (P ++ Y1 ++ x :: Y2 ++ D).take (p + 1).toNat = P ++ Y1 ++ [x] ∧
    (P ++ Y1 ++ x :: Y2 ++ D).drop ((r + 1).toNat) = D ∧
    slice (P ++ Y1 ++ x :: Y2 ++ D) (p + 1) r = Y2 := by
  have h1 : (P ++ Y1).length = p.toNat := by
    rw [List.length_append]
    omega
  have h2 : ((P ++ Y1) ++ (x :: Y2)).length = r.toNat + 1 := by
    simp only [List.length_append, List.length_cons]
    omega
  refine ⟨?_, ?_, ?_, ?_, ?_, ?_⟩
  · rw [List.take_append_of_le_length (by omega),
      List.take_append_of_le_length (by omega),
      List.take_append_of_le_length (by omega),
      List.take_of_length_le (by omega)]
  · rw [List.drop_append_of_le_length (by omega),
      drop_append_len (show p.toNat = (P ++ Y1).length + 0 from by omega),
      List.drop_zero]
  · rw [slice, List.drop_append_of_le_length (by omega),
      List.drop_append_of_le_length (by omega),
      drop_append_len (show l.toNat = P.length + 0 from by omega),
      List.drop_zero]
    rw [List.take_append_of_le_length (by
      simp only [List.length_append, List.length_cons]
      omega)]
    rw [List.take_append_of_le_length (by omega)]
    exact List.take_of_length_le (by omega)
  · rw [List.take_append_of_le_length (by omega),
      take_append_len (show (p + 1).toNat = (P ++ Y1).length + 1 from by omega),
      List.take_succ_cons, List.take_zero]
  · rw [drop_append_len (show (r + 1).toNat =
      ((P ++ Y1) ++ (x :: Y2)).length + 0 from by omega), List.drop_zero]
  · rw [slice, List.drop_append_of_le_length (by omega),
      drop_append_len (show (p + 1).toNat = (P ++ Y1).length + 1 from by omega),
      List.drop_succ_cons, List.drop_zero]
    rw [List.take_append_of_le_length (by omega)]
    exact List.take_of_length_le (by omega)

end sorting_searching

namespace sorting_searching

variable {α : Type} [Inhabited α]

theorem partitionSeg_spec (v : α → Int) (a : List α) (low high : Int)
    (h0 : 0 ≤ low) (hlh : low ≤ high) (hha : high < (a.length : Int)) :
    ∃ (B1 B2 : List α) (p : Int),
      partitionSeg v a low high =
        (a.take low.toNat ++ B1 ++ geti a high :: B2 ++
          a.drop (high.toNat + 1), p) ∧
      low ≤ p ∧ p ≤ high ∧ B1.length = (p - low).toNat ∧
      List.Perm (B1 ++ geti a high :: B2) (slice a low high) ∧
      (∀ x, x ∈ B1 → v x ≤ v (geti a high)) ∧
      (∀ x, x ∈ B2 → v (geti a high) < v x) := by
  obtain ⟨hlen, hperm, htake, hdrop, hi1, hi2, hD, hE⟩ :=
    partitionLoop_spec (high - low).toNat v a (geti a high) high (low - 1) low
      rfl (by omega) (by omega) hlh (by omega) (by intro t ht1 ht2; omega)
  set b1 := (partitionLoop v a (geti a high) high (low - 1) low).1 with hb1
  set i2 := (partitionLoop v a (geti a high) high (low - 1) low).2 with hi2d
  rw [(show ((low - 1) + 1).toNat = low.toNat by omega)] at htake
  have hb1high : geti b1 high = geti a high :=
    geti_of_drop_eq hdrop (le_refl high.toNat)
  have hbpa : (i2 + 1).toNat < b1.length := by rw [hlen]; omega
  have hbha : high.toNat < b1.length := by rw [hlen]; omega
  have hswlen : (swapa b1 (i2 + 1) high).length = a.length := by
    rw [length_swapa, hlen]
  have hbtake : (swapa b1 (i2 + 1) high).take low.toNat = a.take low.toNat := by
    rw [take_swapa_of_le b1 (i2 + 1) high low.toNat (by omega) (by omega), htake]
  have hbdrop : (swapa b1 (i2 + 1) high).drop (high.toNat + 1) =
      a.drop (high.toNat + 1) := by
    rw [drop_swapa_of_lt b1 (i2 + 1) high (high.toNat + 1) (by omega) (by omega)]
    exact drop_eq_of_drop_eq hdrop (high.toNat + 1) (by omega)
  have hbp : geti (swapa b1 (i2 + 1) high) (i2 + 1) = geti a high := by
    by_cases he : i2 + 1 = high
    · rw [he, geti_swapa_right (by omega)]
      exact hb1high
    · rw [geti_swapa_left (by omega) (by omega)]
      exact hb1high
  have hdec : swapa b1 (i2 + 1) high =
      (swapa b1 (i2 + 1) high).take low.toNat ++
        (slice (swapa b1 (i2 + 1) high) low i2 ++
          geti (swapa b1 (i2 + 1) high) (i2 + 1) ::
            slice (swapa b1 (i2 + 1) high) (i2 + 2) high) ++
        (swapa b1 (i2 + 1) high).drop ((high + 1).toNat) := by
    conv_lhs => rw [← slice_decomp (swapa b1 (i2 + 1) high) low high h0
      (by omega)]
    rw [slice_split (swapa b1 (i2 + 1) high) low i2 high h0 (by omega)
      (by omega)]
    rw [slice_cons (swapa b1 (i2 + 1) high) (i2 + 1) high (by omega) (by omega)
      (by rw [hswlen]; omega)]
    rw [(show i2 + 1 + 1 = i2 + 2 by ring)]
  rw [hbtake, hbp, (show (high + 1).toNat = high.toNat + 1 by omega), hbdrop]
    at hdec
  have hpseq : partitionSeg v a low high = (swapa b1 (i2 + 1) high, i2 + 1) := by
    simp only [partitionSeg]
  have hbperm : List.Perm (swapa b1 (i2 + 1) high) a :=
    (perm_swapa hbpa hbha).trans hperm
  have hadec := slice_decomp a low high h0 (by omega)
  rw [(show (high + 1).toNat = high.toNat + 1 by omega)] at hadec
  have hstep : List.Perm a (a.take low.toNat ++ (slice a low high ++
      a.drop (high.toNat + 1))) := by
    rw [← List.append_assoc, hadec]
  have hbperm2 := hbperm.trans hstep
  rw [hdec] at hbperm2
  rw [List.append_assoc] at hbperm2
  have hwperm := (List.perm_append_right_iff _).mp
    ((List.perm_append_left_iff _).mp hbperm2)
  refine ⟨slice (swapa b1 (i2 + 1) high) low i2,
    slice (swapa b1 (i2 + 1) high) (i2 + 2) high, i2 + 1, ?_, by omega,
    by omega, ?_, ?_, ?_, ?_⟩
  · rw [hpseq, Prod.mk.injEq]
    refine ⟨?_, rfl⟩
    conv_lhs => rw [hdec]
    simp only [List.append_assoc, List.cons_append]
  · rw [length_slice (swapa b1 (i2 + 1) high) low i2 h0 (by rw [hswlen]; omega)]
    omega
  · exact hwperm
  · intro x hx
    obtain ⟨t, ht1, ht2, hte⟩ := mem_slice h0 hx
    rw [geti_swapa_other (by omega) (by omega)] at hte
    rw [← hte]
    exact hD t (by omega) (by omega)
  · intro x hx
    obtain ⟨t, ht1, ht2, hte⟩ := mem_slice (by omega) hx
    rw [← hte]
    by_cases hth : t = high
    · rw [hth, geti_swapa_right (by omega)]
      exact hE (i2 + 1) (by omega) (by omega)
    · rw [geti_swapa_other (by omega) (by omega)]
      exact hE t (by omega) (by omega)

end sorting_searching

namespace sorting_searching

variable {α : Type} [Inhabited α]

theorem quickSortSeg_spec : ∀ (m : Nat) (v : α → Int) (a : List α)
    (low high : Int),
    (high - low).toNat = m → 0 ≤ low → low ≤ high + 1 →
    high < (a.length : Int) →
    ∃ M : List α,
      quickSortSeg v a low high =
        a.take low.toNat ++ M ++ a.drop ((high + 1).toNat) ∧
      List.Perm M (slice a low high) ∧
      SortedKey v M := by
  intro m
  induction m using Nat.strong_induction_on with
  | _ m ih =>
    intro v a low high hm h0l hlh hha
    by_cases h : low < high
    · obtain ⟨B1, B2, p, hps, hlp, hph, hB1len, hBperm, hB1v, hB2v⟩ :=
        partitionSeg_spec v a low high h0l (le_of_lt h) hha
      have hslen := hBperm.length_eq
      rw [List.length_append, List.length_cons,
        length_slice a low high h0l hha] at hslen
      have hB2len : B2.length = (high - p).toNat := by omega
      obtain ⟨hc1, hc2, hc3, hc4x, hc5x, hc6x⟩ := part_decomp (a.take low.toNat)
        B1 B2 (a.drop (high.toNat + 1)) (geti a high) low p high
        (by rw [List.length_take]; omega) hB1len hB2len h0l hlp hph
      have hclen : (a.take low.toNat ++ B1 ++ geti a high :: B2 ++
          a.drop (high.toNat + 1)).length = a.length := by
        simp only [List.length_append, List.length_cons, List.length_take,
          List.length_drop]
        omega
      obtain ⟨M1, hqa, hM1perm, hM1sort⟩ :=
        ih ((p - 1) - low).toNat (by omega) v
          (a.take low.toNat ++ B1 ++ geti a high :: B2 ++
            a.drop (high.toNat + 1)) low (p - 1) rfl h0l (by omega)
          (by rw [hclen]; omega)
      rw [(show ((p - 1) + 1).toNat = p.toNat by omega)] at hqa
      rw [hc1, hc2] at hqa
      rw [hc3] at hM1perm
      have hM1len : M1.length = (p - low).toNat := by
        rw [hM1perm.length_eq, hB1len]
      rw [← List.append_assoc (a.take low.toNat ++ M1) (geti a high :: B2)
        (a.drop (high.toNat + 1))] at hqa
      obtain ⟨hq1x, hq2x, hq3x, hq4, hq5, hq6⟩ := part_decomp (a.take low.toNat)
        M1 B2 (a.drop (high.toNat + 1)) (geti a high) low p high
        (by rw [List.length_take]; omega) hM1len hB2len h0l hlp hph
      have hqalen : (a.take low.toNat ++ M1 ++ geti a high :: B2 ++
          a.drop (high.toNat + 1)).length = a.length := by
        simp only [List.length_append, List.length_cons, List.length_take,
          List.length_drop]
        omega
      obtain ⟨M2, hqb, hM2perm, hM2sort⟩ :=
        ih (high - (p + 1)).toNat (by omega) v
          (a.take low.toNat ++ M1 ++ geti a high :: B2 ++
            a.drop (high.toNat + 1)) (p + 1) high rfl (by omega) (by omega)
          (by rw [hqalen]; omega)
      rw [hq4, hq5] at hqb
      rw [hq6] at hM2perm
      have hfin : quickSortSeg v a low high =
          a.take low.toNat ++ (M1 ++ geti a high :: M2) ++
            a.drop ((high + 1).toNat) := by
        rw [quickSortSeg, dif_pos h]
        dsimp only
        rw [hps]
        dsimp only
        rw [hqa, hqb]
        rw [(show (high + 1).toNat = high.toNat + 1 by omega)]
        simp only [List.append_assoc, List.cons_append, List.singleton_append,
          List.nil_append]
      refine ⟨M1 ++ geti a high :: M2, hfin, ?_, ?_⟩
      · exact (hM1perm.append (hM2perm.cons (geti a high))).trans hBperm
      · rw [SortedKey, List.pairwise_append]
        refine ⟨hM1sort, ?_, ?_⟩
        · rw [List.pairwise_cons]
          refine ⟨?_, hM2sort⟩
          intro y hy
          exact le_of_lt (hB2v y (hM2perm.mem_iff.mp hy))
        · intro y hy z hz
          have h1 : v y ≤ v (geti a high) := hB1v y (hM1perm.mem_iff.mp hy)
          rcases List.mem_cons.mp hz with he | hz2
          · rw [he]
            exact h1
          · exact le_trans h1 (le_of_lt (hB2v z (hM2perm.mem_iff.mp hz2)))
    · refine ⟨slice a low high, ?_, List.Perm.refl _, ?_⟩
      · rw [quickSortSeg, dif_neg h]
        exact (slice_decomp a low high h0l hlh).symm
      · refine pairwise_short _ ?_
        rw [slice, List.length_take, List.length_drop]
        omega

end sorting_searching

namespace sorting_searching

variable {α : Type} [Inhabited α]

theorem quickSort_spec (v : α → Int) (a : List α) :
    List.Perm (quickSort v a) a ∧ SortedKey v (quickSort v a) := by
  rw [quickSort]
  obtain ⟨M, hq, hperm, hsort⟩ :=
    quickSortSeg_spec (((a.length : Int) - 1) - 0).toNat v a 0
      ((a.length : Int) - 1) rfl (le_refl 0) (by omega) (by omega)
  have hslice : slice a 0 ((a.length : Int) - 1) = a := by
    rw [slice]
    rw [(show ((a.length : Int) - 1 - 0 + 1).toNat = a.length by omega)]
    rw [Int.toNat_zero, List.drop_zero, List.take_length]
  have hq2 : quickSortSeg v a 0 ((a.length : Int) - 1) = M := by
    rw [hq]
    rw [(show (((a.length : Int) - 1) + 1).toNat = a.length by omega)]
    rw [Int.toNat_zero, List.take_zero, List.drop_length, List.nil_append,
      List.append_nil]
  rw [hq2]
  rw [hslice] at hperm
  exact ⟨hperm, hsort⟩

end sorting_searching

namespace sorting_searching

theorem sorted_perm_unique {x y a : List Int} (hx : List.Perm x a)
    (hy : List.Perm y a) (hsx : x.Pairwise (fun u w : Int => u ≤ w))
    (hsy : y.Pairwise (fun u w : Int => u ≤ w)) : x = y := by
  have hanti : ∀ (u w : Int), u ≤ w → w ≤ u → u = w := fun u w h1 h2 =>
    le_antisymm h1 h2
  exact @List.eq_of_perm_of_sorted Int (fun u w => u ≤ w) ⟨hanti⟩ x y
    (hx.trans hy.symm) hsx hsy

end sorting_searching

/-- C6: each of the five sorting algorithms (bubble, selection, insertion,
merge, quick), run on any finite array of ordered values — including the
empty and single-element arrays — produces a permutation of its input
arranged in non-decreasing key order. -/
theorem sorts_permutation_sorted {α : Type} [Inhabited α] (v : α → Int)
    (a : List α) :
    (List.Perm (sorting_searching.bubbleSort v a) a ∧
      (sorting_searching.bubbleSort v a).Pairwise (fun x y => v x ≤ v y)) ∧
    (List.Perm (sorting_searching.selectionSort v a) a ∧
      (sorting_searching.selectionSort v a).Pairwise (fun x y => v x ≤ v y)) ∧
    (List.Perm (sorting_searching.insertionSort v a) a ∧
      (sorting_searching.insertionSort v a).Pairwise (fun x y => v x ≤ v y)) ∧
    (List.Perm (sorting_searching.mergeSort v a) a ∧
      (sorting_searching.mergeSort v a).Pairwise (fun x y => v x ≤ v y)) ∧
    (List.Perm (sorting_searching.quickSort v a) a ∧
      (sorting_searching.quickSort v a).Pairwise (fun x y => v x ≤ v y)) :=
  ⟨⟨sorting_searching.bubbleSort_perm v a, sorting_searching.bubbleSort_sorted v a⟩,
    ⟨sorting_searching.selectionSort_perm v a,
      sorting_searching.selectionSort_sorted v a⟩,
    ⟨sorting_searching.insertionSort_perm v a,
      sorting_searching.insertionSort_sorted v a⟩,
    ⟨(sorting_searching.mergeSort_spec v a).1,
      (sorting_searching.mergeSort_spec v a).2.1⟩,
    ⟨(sorting_searching.quickSort_spec v a).1,
      (sorting_searching.quickSort_spec v a).2⟩⟩

/-- C7: bubble sort, insertion sort, and merge sort are stable — for every
key value, the subsequence of elements carrying that key is exactly the
same (same elements in the same relative order) before and after sorting.
The claim asserts this only for these three algorithms. -/
theorem stable_sorts_preserve_equal_order {α : Type} [Inhabited α]
    (v : α → Int) (a : List α) (k : Int) :
    sorting_searching.keyFilter v k (sorting_searching.bubbleSort v a) =
      sorting_searching.keyFilter v k a ∧
    sorting_searching.keyFilter v k (sorting_searching.insertionSort v a) =
      sorting_searching.keyFilter v k a ∧
    sorting_searching.keyFilter v k (sorting_searching.mergeSort v a) =
      sorting_searching.keyFilter v k a :=
  ⟨sorting_searching.bubbleSort_filter v a k,
    sorting_searching.insertionSort_filter v a k,
    (sorting_searching.mergeSort_spec v a).2.2 k⟩

/-- C10: run on the same integer array, the five sorting routines leave
identical contents: bubble, selection, insertion, merge and quick sort all
produce the same output list. -/
theorem sorts_extensionally_equal (a : List Int) :
    sorting_searching.bubbleSort (fun x => x) a =
      sorting_searching.selectionSort (fun x => x) a ∧
    sorting_searching.selectionSort (fun x => x) a =
      sorting_searching.insertionSort (fun x => x) a ∧
    sorting_searching.insertionSort (fun x => x) a =
      sorting_searching.mergeSort (fun x => x) a ∧
    sorting_searching.mergeSort (fun x => x) a =
      sorting_searching.quickSort (fun x => x) a :=
  ⟨sorting_searching.sorted_perm_unique
      (sorting_searching.bubbleSort_perm (fun x => x) a)
      (sorting_searching.selectionSort_perm (fun x => x) a)
      (sorting_searching.bubbleSort_sorted (fun x => x) a)
      (sorting_searching.selectionSort_sorted (fun x => x) a),
    sorting_searching.sorted_perm_unique
      (sorting_searching.selectionSort_perm (fun x => x) a)
      (sorting_searching.insertionSort_perm (fun x => x) a)
      (sorting_searching.selectionSort_sorted (fun x => x) a)
      (sorting_searching.insertionSort_sorted (fun x => x) a),
    sorting_searching.sorted_perm_unique
      (sorting_searching.insertionSort_perm (fun x => x) a)
      ((sorting_searching.mergeSort_spec (fun x => x) a).1)
      (sorting_searching.insertionSort_sorted (fun x => x) a)
      ((sorting_searching.mergeSort_spec (fun x => x) a).2.1),
    sorting_searching.sorted_perm_unique
      ((sorting_searching.mergeSort_spec (fun x => x) a).1)
      ((sorting_searching.quickSort_spec (fun x => x) a).1)
      ((sorting_searching.mergeSort_spec (fun x => x) a).2.1)
      ((sorting_searching.quickSort_spec (fun x => x) a).2)⟩
